import Mathlib

/-!
Shallow embedding of `src/pigsqueeze/pigsqueeze.py` (the pigsqueeze codec).

Bytes are modelled as `List Nat` (every value produced by the embedded code is
`< 256`; slicing never inspects values).  Python strings that the code only
ever encodes to UTF-8 are modelled directly by their byte lists; identifier
arguments are the byte list of the string before the appended NUL.

Fallible Python code (every `raise`) is modelled with `Except`.  Exceptions
carry the codec state reached when the exception escapes, so that statements
about the table left behind by a failed call can be made.  The constructors
of `PyErr` name the distinct raise sites / built-in exception kinds of the
source (the source raises bare `Exception` with distinct messages; the
constructor distinguishes the message).
-/

/-- The error kinds raised by the source (one constructor per distinct raise
site or Python built-in exception that the embedded code can produce). -/
inductive PyErr where
  /-- `Exception("Segment number must be between 0 and 15!")` -/
  | invalidSegmentNumber
  /-- `Exception("Segment number ... is not registered as a free segment ...")` -/
  | reservedSegment
  /-- `Exception("The provided data is too big!")` -/
  | payloadTooLarge
  /-- `Exception("Could not find identifier")` / `Exception("The identifier of this chunk differs!")` -/
  | identifierMismatch
  /-- `Exception("Chunk name is a reserved PNG name!")` / `Exception("Chunk type is a reserved PNG name!")` -/
  | reservedChunkName
  /-- `Exception("Chunk types must be a 4-letter word ...")` -/
  | chunkTypeNotFourLetters
  /-- `Exception("Chunk types must start with a lowercase letter!")` -/
  | chunkTypeUppercase
  /-- `Exception(f"Chunk name ... not found!")` -/
  | chunkNotFound
  /-- Python `ValueError` (e.g. `min()` of an empty collection, or unpacking a
  wrong-sized slice into two variables). -/
  | valueError
  /-- Python `IndexError` (subscript of an empty list). -/
  | indexError
  /-- Python `TypeError` (comparison between `None` and `int` inside `sorted`). -/
  | typeError
  /-- Python `OverflowError` (`int.to_bytes` of a value not fitting the width,
  raised by the `plum` fixed-width pack helpers). -/
  | overflowError
  /-- Python `ZeroDivisionError`. -/
  | zeroDivisionError
  /-- `plum` unpack of a buffer whose size differs from the type's width. -/
  | unpackSizeError
deriving DecidableEq, Repr

/-- `plum.int.big.UInt8.pack`: one big-endian byte; `int.to_bytes` raises
`OverflowError` when the value does not fit. -/
def packU8 (n : Nat) : Except PyErr (List Nat) :=
  if n < 256 then .ok [n] else .error .overflowError

/-- `plum.int.big.UInt16.pack`: two big-endian bytes. -/
def packU16 (n : Nat) : Except PyErr (List Nat) :=
  if n < 65536 then .ok [n / 256, n % 256] else .error .overflowError

/-- `plum.int.big.UInt32.pack`: four big-endian bytes. -/
def packU32 (n : Nat) : Except PyErr (List Nat) :=
  if n < 4294967296 then
    .ok [n / 16777216, n / 65536 % 256, n / 256 % 256, n % 256]
  else .error .overflowError

/-- `plum.int.big.UInt16.unpack`: requires exactly two bytes. -/
def unpackU16 (b : List Nat) : Except PyErr Nat :=
  match b with
  | [a, c] => .ok (a * 256 + c)
  | _ => .error .unpackSizeError

/-- `plum.int.big.UInt32.unpack`: requires exactly four bytes. -/
def unpackU32 (b : List Nat) : Except PyErr Nat :=
  match b with
  | [a, c, d, e] => .ok (a * 16777216 + c * 65536 + d * 256 + e)
  | _ => .error .unpackSizeError

/-- Python slice `b[i:j]` on a byte string. -/
def pySlice (b : List Nat) (i j : Nat) : List Nat :=
  (b.drop i).take (j - i)

/-- Python slice `b[i:]`. -/
def pySliceFrom (b : List Nat) (i : Nat) : List Nat :=
  b.drop i

/-!  ## Python `sorted`

CPython's `sorted` is a stable comparison sort.  Extensionally a stable sort
by a strict comparison `lt` equals sorting the position-decorated list by the
lexicographic order (value under `lt`, then original position), which is what
`pyStableSort` computes.  `sorted` raises `TypeError` as soon as an unordered
pair (such as `None` vs `int`) is compared; call sites that can feed `None`
keys model that separately. -/

/-- Lexicographic comparison relation used by `pyStableSort`: first the strict
comparison `lt` on the payload, ties broken by original position. -/
def decoRel (lt : α → α → Bool) (a b : Nat × α) : Prop :=
  lt a.2 b.2 = true ∨ (lt a.2 b.2 = false ∧ lt b.2 a.2 = false ∧ a.1 ≤ b.1)

instance (lt : α → α → Bool) : DecidableRel (decoRel lt) := fun a b =>
  inferInstanceAs (Decidable (_ ∨ _))

/-- Stable sort by a strict boolean comparison, as CPython's `sorted`. -/
def pyStableSort (lt : α → α → Bool) (l : List α) : List α :=
  (l.enum.insertionSort (decoRel lt)).map Prod.snd

theorem pyStableSort_perm (lt : α → α → Bool) (l : List α) :
    (pyStableSort lt l).Perm l := by
  have h := (List.perm_insertionSort (decoRel lt) l.enum).map Prod.snd
  simpa [pyStableSort, List.enum_map_snd] using h

theorem length_pyStableSort (lt : α → α → Bool) (l : List α) :
    (pyStableSort lt l).length = l.length :=
  (pyStableSort_perm lt l).length_eq

theorem mem_pyStableSort (lt : α → α → Bool) (l : List α) (a : α) :
    a ∈ pyStableSort lt l ↔ a ∈ l :=
  (pyStableSort_perm lt l).mem_iff

/-- Comparison used whenever the source sorts by a numeric key
(`sorted(..., key=lambda x: x[0])` on integer keys, `sorted(d.items())` on
integer dictionary keys). -/
def natKeyLt (key : α → Nat) (a b : α) : Bool :=
  decide (key a < key b)

instance (key : α → Nat) : IsTotal (Nat × α) (decoRel (natKeyLt key)) := by
  constructor
  intro a b
  rcases Nat.lt_trichotomy (key a.2) (key b.2) with h | h | h
  · exact Or.inl (Or.inl (by simp [natKeyLt, h]))
  · rcases Nat.le_total a.1 b.1 with hp | hp
    · exact Or.inl (Or.inr (by simp [natKeyLt, h, hp]))
    · exact Or.inr (Or.inr (by simp [natKeyLt, h, hp]))
  · exact Or.inr (Or.inl (by simp [natKeyLt, h]))

instance (key : α → Nat) : IsTrans (Nat × α) (decoRel (natKeyLt key)) := by
  constructor
  intro a b c hab hbc
  simp only [decoRel, natKeyLt, decide_eq_true_eq, decide_eq_false_iff_not,
    Nat.not_lt] at hab hbc ⊢
  rcases hab with hab | ⟨h1, h2, h3⟩ <;> rcases hbc with hbc | ⟨h4, h5, h6⟩
  · exact Or.inl (hab.trans hbc)
  · exact Or.inl (Nat.lt_of_lt_of_le hab h5)
  · exact Or.inl (Nat.lt_of_le_of_lt h2 hbc)
  · exact Or.inr ⟨Nat.le_trans h4 h1, Nat.le_trans h2 h5, Nat.le_trans h3 h6⟩

theorem pairwise_pyStableSort_natKey (key : α → Nat) (l : List α) :
    (pyStableSort (natKeyLt key) l).Pairwise (fun a b => key a ≤ key b) := by
  have h := List.sorted_insertionSort (decoRel (natKeyLt key)) l.enum
  refine List.Pairwise.map Prod.snd ?_ h
  intro a b hab
  rcases hab with hab | ⟨_, h2, _⟩
  · exact Nat.le_of_lt (by simpa [natKeyLt] using hab)
  · simpa [natKeyLt, Nat.not_lt] using h2

/-- A list already weakly sorted by the key is returned unchanged (CPython's
stable sort does not reorder it either). -/
theorem pyStableSort_eq_self (key : α → Nat) (l : List α)
    (h : l.Pairwise (fun a b => key a ≤ key b)) :
    pyStableSort (natKeyLt key) l = l := by
  have hs : List.Sorted (decoRel (natKeyLt key)) l.enum := by
    rw [List.Sorted, List.pairwise_iff_getElem]
    intro i j hi hj hij
    rw [List.pairwise_iff_getElem] at h
    have hi' : i < l.length := by simpa using hi
    have hj' : j < l.length := by simpa using hj
    have hk := h i j hi' hj' hij
    rcases Nat.lt_or_ge (key l[i]) (key l[j]) with hlt | hge
    · exact Or.inl (by simp [natKeyLt, List.getElem_enum, hlt])
    · have heq : key l[i] = key l[j] := Nat.le_antisymm hk hge
      exact Or.inr (by simp [natKeyLt, List.getElem_enum, heq, Nat.le_of_lt hij])
  rw [pyStableSort, hs.insertionSort_eq, List.enum_map_snd]

/-- Two weakly key-sorted permutations of each other whose keys are pairwise
distinct are equal: sorting is order-of-input independent on distinct keys. -/
theorem eq_of_perm_of_pairwise_of_nodup_keys (key : α → Nat) :
    ∀ {l₁ l₂ : List α}, l₁.Perm l₂ →
      l₁.Pairwise (fun a b => key a ≤ key b) →
      l₂.Pairwise (fun a b => key a ≤ key b) →
      (l₁.map key).Nodup → l₁ = l₂ := by
  intro l₁
  induction l₁ with
  | nil =>
    intro l₂ hp _ _ _
    exact (hp.nil_eq).symm ▸ rfl
  | cons a t ih =>
    intro l₂ hp h1 h2 hnd
    cases l₂ with
    | nil => exact absurd hp.symm.nil_eq (by simp)
    | cons b t₂ =>
      have hab : a = b := by
        by_contra hne
        have hain : a ∈ b :: t₂ := hp.mem_iff.mp (by simp)
        have hbin : b ∈ a :: t := hp.mem_iff.mpr (by simp)
        have hat₂ : a ∈ t₂ := by
          rcases List.mem_cons.mp hain with h | h
          · exact absurd h hne
          · exact h
        have hbt : b ∈ t := by
          rcases List.mem_cons.mp hbin with h | h
          · exact absurd h.symm hne
          · exact h
        have hab1 : key a ≤ key b := (List.pairwise_cons.mp h1).1 b hbt
        have hab2 : key b ≤ key a := (List.pairwise_cons.mp h2).1 a hat₂
        have hkey : key a = key b := Nat.le_antisymm hab1 hab2
        have : key a ∉ (t.map key) := (List.nodup_cons.mp (by simpa using hnd)).1
        exact this (hkey ▸ List.mem_map_of_mem key hbt)
      subst hab
      have ht : t.Perm t₂ := hp.cons_inv
      have := ih ht (List.pairwise_cons.mp h1).2 (List.pairwise_cons.mp h2).2
        (List.nodup_cons.mp (by simpa using hnd)).2
      rw [this]

theorem orderedInsert_congr {r s : α → α → Prop} [DecidableRel r] [DecidableRel s]
    (a : α) : ∀ l : List α, (∀ b ∈ l, (r a b ↔ s a b)) →
      l.orderedInsert r a = l.orderedInsert s a := by
  intro l
  induction l with
  | nil => intro _; rfl
  | cons b t ih =>
    intro h
    simp only [List.orderedInsert]
    by_cases hr : r a b
    · rw [if_pos hr, if_pos ((h b (by simp)).mp hr)]
    · rw [if_neg hr, if_neg (fun hs => hr ((h b (by simp)).mpr hs)),
        ih (fun c hc => h c (by simp [hc]))]

theorem insertionSort_congr {r s : α → α → Prop} [DecidableRel r] [DecidableRel s] :
    ∀ l : List α, (∀ a ∈ l, ∀ b ∈ l, (r a b ↔ s a b)) →
      l.insertionSort r = l.insertionSort s := by
  intro l
  induction l with
  | nil => intro _; rfl
  | cons a t ih =>
    intro h
    simp only [List.insertionSort]
    rw [ih (fun x hx y hy => h x (by simp [hx]) y (by simp [hy]))]
    refine orderedInsert_congr a _ ?_
    intro b hb
    have hbt : b ∈ t := (List.perm_insertionSort s t).mem_iff.mp hb
    exact h a (by simp) b (by simp [hbt])

/-- Congruence for `pyStableSort`: comparisons agreeing on all pairs of list
members produce the same output. -/
theorem pyStableSort_congr (lt₁ lt₂ : α → α → Bool) (l : List α)
    (h : ∀ a ∈ l, ∀ b ∈ l, lt₁ a b = lt₂ a b) :
    pyStableSort lt₁ l = pyStableSort lt₂ l := by
  unfold pyStableSort
  have h2 : ∀ a ∈ l.enum, ∀ b ∈ l.enum, (decoRel lt₁ a b ↔ decoRel lt₂ a b) := by
    intro a ha b hb
    have ha2 : a.2 ∈ l := by
      rw [← List.enum_map_snd l]; exact List.mem_map_of_mem Prod.snd ha
    have hb2 : b.2 ∈ l := by
      rw [← List.enum_map_snd l]; exact List.mem_map_of_mem Prod.snd hb
    simp [decoRel, h a.2 ha2 b.2 hb2, h b.2 hb2 a.2 ha2]
  rw [insertionSort_congr l.enum h2]

/-! ## CRC-32 (`zlib.crc32`)

The standard reflected CRC-32 with polynomial `0xEDB88320`, bitwise.  The
source only ever feeds byte strings; reducing each input element mod 256
makes the model total on `Nat` without changing it on the source's domain. -/

def crc32Step (c : Nat) : Nat :=
  if c % 2 = 1 then Nat.xor (c / 2) 0xEDB88320 else c / 2

def crc32Update (c b : Nat) : Nat :=
  (List.range 8).foldl (fun a _ => crc32Step a) (Nat.xor c (b % 256))

def crc32 (data : List Nat) : Nat :=
  Nat.xor (data.foldl crc32Update 0xFFFFFFFF) 0xFFFFFFFF

theorem xor_lt_u32 {a b : Nat} (ha : a < 4294967296) (hb : b < 4294967296) :
    Nat.xor a b < 4294967296 := by
  have h32 : (4294967296 : Nat) = 2 ^ 32 := by norm_num
  rw [h32] at *
  exact Nat.xor_lt_two_pow ha hb

theorem crc32Step_lt (c : Nat) (h : c < 4294967296) : crc32Step c < 4294967296 := by
  unfold crc32Step
  split
  · exact xor_lt_u32 (by omega) (by norm_num)
  · omega

theorem crc32Update_lt (c b : Nat) (h : c < 4294967296) :
    crc32Update c b < 4294967296 := by
  unfold crc32Update
  have h0 : Nat.xor c (b % 256) < 4294967296 :=
    xor_lt_u32 h (by have := Nat.mod_lt b (show 0 < 256 by norm_num); omega)
  simp only [List.range_succ, List.foldl_append, List.foldl_cons, List.foldl_nil,
    List.range_zero]
  exact crc32Step_lt _ (crc32Step_lt _ (crc32Step_lt _ (crc32Step_lt _
    (crc32Step_lt _ (crc32Step_lt _ (crc32Step_lt _ (crc32Step_lt _ h0)))))))

theorem crc32_lt (data : List Nat) : crc32 data < 4294967296 := by
  unfold crc32
  refine xor_lt_u32 ?_ (by norm_num)
  induction data using List.reverseRecOn with
  | nil => norm_num
  | append_singleton t b ih =>
    rw [List.foldl_append, List.foldl_cons, List.foldl_nil]
    exact crc32Update_lt _ _ ih

/-! ## Association lists (Python `dict` with insertion order)

Assignment to an existing key updates it in place keeping its position;
assignment to a new key appends it.  Lookup and membership are by key. -/

def setKey [DecidableEq κ] : List (κ × ν) → κ → ν → List (κ × ν)
  | [], k, x => [(k, x)]
  | (k0, v0) :: t, k, x =>
    if k0 = k then (k, x) :: t else (k0, v0) :: setKey t k x

def lookupKey [DecidableEq κ] : List (κ × ν) → κ → Option ν
  | [], _ => none
  | (k0, v0) :: t, k => if k0 = k then some v0 else lookupKey t k

def hasKey [DecidableEq κ] (m : List (κ × ν)) (k : κ) : Bool :=
  (lookupKey m k).isSome

namespace PNGImage

/-- One parsed chunk tuple `(chunk_length, chunk_type, chunk_data, chunk_crc)`. -/
structure Chunk where
  length : Nat
  type : List Nat
  data : List Nat
  crc : Nat
deriving DecidableEq, Repr

/-- `PNGImage.HEADER = b"\x89PNG\r\n\x1a\n"`. -/
def HEADER : List Nat := [137, 80, 78, 71, 13, 10, 26, 10]

/-- `PNGImage.PNG_CHUNKS`: the standard chunk type names, as byte lists. -/
def PNG_CHUNKS : List (List Nat) :=
  [[73, 72, 68, 82],    -- IHDR
   [80, 76, 84, 69],    -- PLTE
   [73, 68, 65, 84],    -- IDAT
   [73, 69, 78, 68],    -- IEND
   [116, 82, 78, 83],   -- tRNS
   [99, 72, 82, 77],    -- cHRM
   [103, 65, 77, 65],   -- gAMA
   [105, 67, 67, 80],   -- iCCP
   [115, 66, 73, 84],   -- sBIT
   [115, 82, 71, 66],   -- sRGB
   [105, 84, 88, 116],  -- iTXt
   [116, 69, 88, 116],  -- tEXt
   [122, 84, 88, 116],  -- zTXt
   [98, 75, 71, 68],    -- bKGD
   [104, 73, 83, 84],   -- hIST
   [112, 72, 89, 115],  -- pHYs
   [115, 80, 76, 84],   -- sPLT
   [116, 73, 77, 69]]   -- tIME

/-- The mutable per-instance state of a `PNGImage`: the ordered standard
chunk sequence `self.chunks` and the custom chunk dictionary
`self.custom_chunks` keyed by type bytes. -/
structure State where
  chunks : List Chunk
  customChunks : List (List Nat × Chunk)
deriving DecidableEq, Repr

/-- One iteration of the `while cursor < len(...)` loop in `PNGImage.parse`.
`fuel` only bounds the recursion: every iteration advances the cursor by at
least 12, so the `image.length + 1` supplied at entry can never run out (the
fuel-exhausted branch is unreachable). -/
def parseLoop (b : List Nat) :
    Nat → Nat → List Chunk → List (List Nat × Chunk) →
    Except PyErr (List Chunk × List (List Nat × Chunk))
  | 0, _, _, _ => .error .valueError
  | fuel + 1, cursor, chunks, customs =>
    if cursor < b.length then do
      let chunkLength ← unpackU32 (pySlice b cursor (cursor + 4))
      let cursor := cursor + 4
      let chunkType := pySlice b cursor (cursor + 4)
      let cursor := cursor + 4
      let chunkData := pySlice b cursor (cursor + chunkLength)
      let cursor := cursor + chunkLength
      let chunkCrc ← unpackU32 (pySlice b cursor (cursor + 4))
      let cursor := cursor + 4
      let c : Chunk := ⟨chunkLength, chunkType, chunkData, chunkCrc⟩
      if chunkType ∈ PNG_CHUNKS then
        parseLoop b fuel cursor (chunks ++ [c]) customs
      else
        parseLoop b fuel cursor chunks (setKey customs chunkType c)
    else .ok (chunks, customs)

/-- `PNGImage.parse`: skip the 8-byte header, then walk the chunk stream. -/
def parse (b : List Nat) : Except PyErr State := do
  let r ← parseLoop b (b.length + 1) HEADER.length [] []
  .ok ⟨r.1, r.2⟩

/-- Python `str.isupper` on the first character; chunk types are modelled by
their byte lists (the source validates the string then UTF-8 encodes it; for
the ASCII arguments the claims range over, characters and bytes coincide). -/
def pyIsUpperByte (c : Nat) : Bool :=
  decide (65 ≤ c ∧ c ≤ 90)

/-- The guard `chunk_type in self.PNG_CHUNKS` at the top of `read` and
`write`.  `chunk_type` is still a `str` there while `PNG_CHUNKS` holds
`bytes` constants, and in Python 3 a `str` never compares equal to a
`bytes`, so the membership test is `False` for every argument. -/
def strInBytesTuple (_chunkType : List Nat) : Bool := false

/-- `PNGImage.read`. -/
def read (s : State) (chunkType identifier : List Nat) :
    Except PyErr (List Nat) :=
  if strInBytesTuple chunkType then .error .reservedChunkName
  else if chunkType.length ≠ 4 then .error .chunkTypeNotFourLetters
  else if pyIsUpperByte (chunkType.headD 0) then .error .chunkTypeUppercase
  else
    let ident := identifier ++ [0]
    match lookupKey s.customChunks chunkType with
    | none => .error .chunkNotFound
    | some c =>
      if ident = [0] ∨ c.data.take ident.length ≠ ident then
        .error .identifierMismatch
      else .ok (c.data.drop ident.length)

/-- `PNGImage.write`. -/
def write (s : State) (chunkType identifier data : List Nat) :
    Except PyErr State :=
  if strInBytesTuple chunkType then .error .reservedChunkName
  else if chunkType.length ≠ 4 then .error .chunkTypeNotFourLetters
  else if pyIsUpperByte (chunkType.headD 0) then .error .chunkTypeUppercase
  else
    let ident := identifier ++ [0]
    let chunkData := ident ++ data
    let chunkCrc := crc32 (chunkType ++ chunkData)
    .ok ⟨s.chunks,
      setKey s.customChunks chunkType
        ⟨chunkData.length, chunkType, chunkData, chunkCrc⟩⟩

/-- Serialization of one chunk inside `PNGImage.save`:
`UInt32.pack(length) + type + data + UInt32.pack(crc)`. -/
def serializeChunk (c : Chunk) : Except PyErr (List Nat) := do
  let lenB ← packU32 c.length
  let crcB ← packU32 c.crc
  .ok (lenB ++ c.type ++ c.data ++ crcB)

/-- Key comparison for `sorted(self.custom_chunks.items())`: Python compares
the `(key, value)` tuples, which on the distinct `bytes` keys of a dict is
exactly lexicographic byte comparison of the keys. -/
def bytesLt : List Nat → List Nat → Bool
  | [], [] => false
  | [], _ :: _ => true
  | _ :: _, [] => false
  | a :: as, b :: bs => if a < b then true else if b < a then false else bytesLt as bs

/-- `PNGImage.save`: header, first standard chunk, custom chunks sorted by
type, remaining standard chunks. -/
def save (s : State) : Except PyErr (List Nat) := do
  let sortedCustoms := pyStableSort (fun a b => bytesLt a.1 b.1) s.customChunks
  let emitted := s.chunks.take 1 ++ sortedCustoms.map Prod.snd ++ s.chunks.drop 1
  emitted.foldlM (fun acc c => do
    let e ← serializeChunk c
    pure (acc ++ e)) HEADER

end PNGImage

namespace JPEGImage

/-- `JPEGImage.FREE_SEGMENTS`. -/
def FREE_SEGMENTS : List Nat := [4, 5, 6, 7, 8, 9, 10, 11, 15]

/-- A stored fragment `(fragment_index, raw_bytes)`: the index is `None` for
fragments created by `parse` or by a single-fragment `write`. -/
abbrev Frag := Option Nat × List Nat

/-- The mutable per-instance state of a `JPEGImage`: the raw buffer
`self.image_bytes`, the table `self.segments` (a `defaultdict(list)` keyed by
the marker byte `224 + n`, in first-seen order), and the splice boundaries
`self.app_seg_start` / `self.app_seg_end`. -/
structure State where
  imageBytes : List Nat
  segments : List (Nat × List Frag)
  appSegStart : Nat
  appSegEnd : Nat
deriving DecidableEq, Repr

/-- The stride-2 scan of `parse`: `for cursor in range(0, len, 2)`, recording
`(marker byte, offset)` whenever `image_bytes[cursor:cursor+2]` is
`0xFF (0xE0+i)` (a final lone byte never matches a 2-byte marker). -/
def collectMarkers : Nat → List Nat → List (Nat × Nat)
  | _, [] => []
  | _, [_] => []
  | pos, a :: b :: rest =>
    (if a = 255 ∧ 224 ≤ b ∧ b ≤ 239 then [(b, pos)] else []) ++
      collectMarkers (pos + 2) rest

/-- `defaultdict(list)` append: create the key on first use (at the end, in
first-seen order), otherwise extend its list in place. -/
def appendAt [DecidableEq κ] : List (κ × List ν) → κ → ν → List (κ × List ν)
  | [], k, x => [(k, [x])]
  | (k0, l) :: t, k, x =>
    if k0 = k then (k0, l ++ [x]) :: t else (k0, l) :: appendAt t k x

/-- Grouping of the scanned markers into `app_segments`. -/
def groupMarkers (ms : List (Nat × Nat)) : List (Nat × List Nat) :=
  ms.foldl (fun acc m => appendAt acc m.1 m.2) []

/-- Python `min` over a list; `min` of an empty collection raises `ValueError`. -/
def listMin : List Nat → Except PyErr Nat
  | [] => .error .valueError
  | a :: t => .ok (t.foldl Nat.min a)

/-- The resynchronisation loop of `parse`:
`while image_bytes[cursor:cursor+1] != b"\xff": cursor += 1; if cursor > len: break`.
From a position inside the buffer it stops at the first `0xFF` at or after
it, else runs one past the end; from a position at or past the end the loop
body runs once and breaks. -/
def resync (b : List Nat) (c : Nat) : Nat :=
  if c < b.length then
    match (b.drop c).findIdx? (fun x => x == 255) with
    | some j => c + j
    | none => b.length + 1
  else c + 1

/-- Processing of one marker occurrence in `parse`: read the 16-bit length,
jump to `start + seg_len + 1`, resynchronise on the `0xFF` sentinel, and take
`image_bytes[start+2:cursor]` as the fragment.  Returns the fragment together
with the final cursor. -/
def extractFrag (b : List Nat) (start : Nat) : Except PyErr (Frag × Nat) := do
  let segLen ← unpackU16 (pySlice b (start + 2) (start + 4))
  let cursor := resync b (start + segLen + 1)
  .ok ((none, pySlice b (start + 2) cursor), cursor)

/-- `JPEGImage.parse`.  The final component of the fold is the cursor left by
the last processed fragment, recorded as `app_seg_end`; its initial value 0
stands for the scan loop's final cursor and is dead as soon as any marker
was found (when none was, `min` of the empty `app_segments` raises first). -/
def parse (b : List Nat) : Except PyErr State := do
  let groups := groupMarkers (collectMarkers 0 b)
  let kmin ← listMin (groups.map Prod.fst)
  let appSegStart ← listMin ((lookupKey groups kmin).getD [])
  let r ← groups.foldlM (fun acc kv =>
      kv.2.foldlM (fun acc2 start => do
        let fc ← extractFrag b start
        pure (appendAt acc2.1 kv.1 fc.1, fc.2)) acc)
    (([] : List (Nat × List Frag)), 0)
  .ok ⟨b, r.1, appSegStart, r.2⟩

/-- Key of `sorted(..., key=lambda x: x[0])` over fragments.  Both call sites
reach the comparison only with `int` indices (`read` retags every fragment
first; `save` guards via `pySortFragsByIndex`), so the `none` branch is dead. -/
def fragIndexKey (f : Frag) : Nat :=
  match f.1 with
  | some n => n
  | none => 0

/-- `sorted(chunks, key=lambda x: x[0])` where an index may be `None`.
CPython sorts lists of two or more elements by comparing keys, and every
element takes part in at least one comparison; `None` supports no `<`, so
any such list with a `None` key raises `TypeError`.  Lists of at most one
element are returned without any comparison. -/
def pySortFragsByIndex (l : List Frag) : Except PyErr (List Frag) :=
  if l.length ≤ 1 then .ok l
  else if l.any (fun f => f.1.isNone) then .error .typeError
  else .ok (pyStableSort (natKeyLt fragIndexKey) l)

/-- The validate-and-retag loop of the multi-fragment branch of `read`:
check each fragment's identifier header, then rebuild the list tagging each
fragment with the `current_chunk` byte stored at `chunk[2+len(ident)+1]`
(unpacking the 2-byte slice raises `ValueError` when it is shorter). -/
def retagFrags (ident : List Nat) : List Frag → Except PyErr (List Frag)
  | [] => .ok []
  | (_, chunk) :: t =>
    if (chunk.drop 2).take ident.length ≠ ident then .error .identifierMismatch
    else
      match pySlice chunk (2 + ident.length) (2 + ident.length + 2) with
      | [_, cur] => do
        let rest ← retagFrags ident t
        .ok ((some cur, chunk) :: rest)
      | _ => .error .valueError

/-- `JPEGImage.read`.  The result carries the table state after the call:
the multi-fragment branch overwrites `self.segments[segment]` with the
retagged list before reassembling. -/
def read (multiChunk : Bool) (s : State) (segment : Nat)
    (identifier : List Nat) : Except (PyErr × State) (Option (List Nat) × State) :=
  let seg := 224 + segment
  let ident := identifier ++ [0]
  if ¬ hasKey s.segments seg then .ok (none, s)
  else
    let frags := (lookupKey s.segments seg).getD []
    if ¬ multiChunk then
      match frags with
      | [] => .error (.indexError, s)
      | (_, chunk) :: _ =>
        if (chunk.drop 2).take ident.length ≠ ident then
          .error (.identifierMismatch, s)
        else .ok (some (chunk.drop (2 + ident.length)), s)
    else
      match retagFrags ident frags with
      | .error e => .error (e, s)
      | .ok newFrags =>
        let s2 : State := ⟨s.imageBytes, setKey s.segments seg newFrags,
          s.appSegStart, s.appSegEnd⟩
        match pySortFragsByIndex newFrags with
        | .error e => .error (e, s2)
        | .ok sortedFrags =>
          .ok (some (sortedFrags.foldl
            (fun acc f => acc ++ f.2.drop (2 + ident.length + 2)) []), s2)

/-- `math.ceil(a / b)` on Python ints (exact for every quotient the claims
reach; CPython's float division is exact there, see `write`). -/
def pyCeilDiv (a b : Int) : Int :=
  -(Int.fdiv (-a) b)

/-- Construction of one fragment's `segment_data` inside the `write` loop. -/
def buildFrag (multiChunk : Bool) (ident data : List Nat)
    (cs totalChunks i : Nat) : Except PyErr (List Nat) := do
  let chunkData := pySlice data (i * cs) ((i + 1) * cs)
  let lenB ← packU16 (chunkData.length + ident.length + 2 +
    (if multiChunk then 2 else 0))
  let tailB ← if multiChunk then do
      let tB ← packU8 totalChunks
      let cB ← packU8 i
      pure (tB ++ cB)
    else pure ([] : List Nat)
  .ok (lenB ++ ident ++ tailB ++ chunkData)

/-- The fragment-building loop of `write`, threading the table so that an
exception escaping mid-loop leaves the partially rebuilt segment behind. -/
def writeLoop (multiChunk : Bool) (seg : Nat) (ident data : List Nat)
    (cs totalChunks : Nat) : List Nat → State → Except (PyErr × State) State
  | [], st => .ok st
  | i :: rest, st =>
    match buildFrag multiChunk ident data cs totalChunks i with
    | .error e => .error (e, st)
    | .ok fragBytes =>
      let st2 : State := ⟨st.imageBytes,
        appendAt st.segments seg ((if multiChunk then some i else none), fragBytes),
        st.appSegStart, st.appSegEnd⟩
      writeLoop multiChunk seg ident data cs totalChunks rest st2

/-- `JPEGImage.write`.  The segment argument is modelled as a natural number
(no claim exercises a negative one), so of `segment < 0 or segment > 15`
only the upper test can fire.  `chunk_size` and `total_chunks` are Python
ints that can be negative for oversized identifiers, hence `Int`;
`math.ceil(len(data) / chunk_size)` is exact for all reachable magnitudes
(quotients below `2^53` with denominators far from the float precision
edge), and `chunk_size = 0` makes the division raise `ZeroDivisionError`. -/
def write (multiChunk : Bool) (s : State) (segment : Nat)
    (identifier data : List Nat) : Except (PyErr × State) State :=
  if 15 < segment then .error (.invalidSegmentNumber, s)
  else if segment ∉ FREE_SEGMENTS then .error (.reservedSegment, s)
  else
    let seg := 224 + segment
    let ident := identifier ++ [0]
    let chunkSizeI : Int := (63535 : Int) - ((ident.length : Int) + 2) - 1
    if chunkSizeI = 0 then .error (.zeroDivisionError, s)
    else
      let totalChunksI : Int := pyCeilDiv (data.length : Int) chunkSizeI
      let maxSizeI : Int := 256 * chunkSizeI
      if maxSizeI < (data.length : Int) then .error (.payloadTooLarge, s)
      else
        let st1 : State := ⟨s.imageBytes, setKey s.segments seg [],
          s.appSegStart, s.appSegEnd⟩
        writeLoop multiChunk seg ident data chunkSizeI.toNat totalChunksI.toNat
          (List.range totalChunksI.toNat) st1

/-- The `assembled_segments` accumulation of `JPEGImage.save`: segments in
ascending numeric order, fragments within a segment sorted by index, each
fragment prefixed with `0xFF` and the segment byte. -/
def assembleSegments (segments : List (Nat × List Frag)) : Except PyErr (List Nat) :=
  (pyStableSort (natKeyLt Prod.fst) segments).foldlM (fun acc kv => do
    let sortedFrags ← pySortFragsByIndex kv.2
    pure (acc ++ sortedFrags.foldl (fun a f => a ++ 255 :: kv.1 :: f.2) [])) []

/-- `JPEGImage.save`: the assembled segments spliced between
`image_bytes[:app_seg_start]` and `image_bytes[app_seg_end:]`. -/
def save (s : State) : Except PyErr (List Nat) := do
  let assembled ← assembleSegments s.segments
  pure (s.imageBytes.take s.appSegStart ++ assembled ++
    s.imageBytes.drop s.appSegEnd)

end JPEGImage

namespace JPEGImage

/-- The table state in which a `read` call leaves the codec, whether it
returns or raises. -/
def readStateOf :
    Except (PyErr × State) (Option (List Nat) × State) → State
  | .ok r => r.2
  | .error e => e.2

theorem writeLoop_frame (mc : Bool) (seg : Nat) (ident data : List Nat)
    (cs tc : Nat) : ∀ (l : List Nat) (st st2 : State),
    writeLoop mc seg ident data cs tc l st = .ok st2 →
    st2.imageBytes = st.imageBytes ∧ st2.appSegStart = st.appSegStart ∧
      st2.appSegEnd = st.appSegEnd
  | [], st, st2, h => by
    simp only [writeLoop] at h
    injection h with h
    rw [← h]
    exact ⟨rfl, rfl, rfl⟩
  | i :: rest, st, st2, h => by
    simp only [writeLoop] at h
    cases hb : buildFrag mc ident data cs tc i with
    | error e => rw [hb] at h; exact absurd h (by simp)
    | ok fragBytes =>
      rw [hb] at h
      have h2 := writeLoop_frame mc seg ident data cs tc rest
        ⟨st.imageBytes,
          appendAt st.segments seg ((if mc then some i else none), fragBytes),
          st.appSegStart, st.appSegEnd⟩ st2 (by exact h)
      simpa using h2

end JPEGImage

/-! ## Claim C10 -/

theorem collectMarkers_nil_of_no_marker : ∀ (b : List Nat) (pos : Nat),
    (∀ i, i % 2 = 0 →
      ¬(b.getD i 0 = 255 ∧ 224 ≤ b.getD (i + 1) 0 ∧ b.getD (i + 1) 0 ≤ 239)) →
    JPEGImage.collectMarkers pos b = []
  | [], _, _ => rfl
  | [_], _, _ => rfl
  | a :: c :: rest, pos, hm => by
    have h0 := hm 0 rfl
    simp only [List.getD_cons_zero, List.getD_cons_succ] at h0
    rw [JPEGImage.collectMarkers, if_neg h0, List.nil_append]
    exact collectMarkers_nil_of_no_marker rest (pos + 2) (fun i hi => by
      have h2 := hm (i + 2) (by omega)
      simpa only [List.getD_cons_succ] using h2)

/-- Claim C10: a buffer that opens with the SOI marker `FF D8` but holds no
APPn marker pair `FF (E0+n)` at any even offset makes `JPEGImage.parse`
raise (Python's `min` of the empty `app_segments` collection raises
`ValueError`) instead of returning a state with an empty segment table. -/
theorem C10_parse_raises_without_markers (b : List Nat)
    (_hh : b.take 2 = [255, 216])
    (hm : ∀ i, i % 2 = 0 →
      ¬(b.getD i 0 = 255 ∧ 224 ≤ b.getD (i + 1) 0 ∧ b.getD (i + 1) 0 ≤ 239)) :
    JPEGImage.parse b = .error .valueError := by
  unfold JPEGImage.parse
  rw [collectMarkers_nil_of_no_marker b 0 hm]
  rfl

theorem C10_witness :
    JPEGImage.parse [255, 216] = .error .valueError := by
  refine C10_parse_raises_without_markers [255, 216] rfl ?_
  intro i hi
  match i with
  | 0 => decide
  | 1 => simp at hi
  | n + 2 => simp [List.getD]

/-! ## Claim C8 -/

/-- Claim C8: `write` with segment 0 (inside 0–15 but outside the free set)
raises the reserved-segment error and `write` with segment 16 (outside
0–15) raises the invalid-segment-number error; the two error kinds are
distinct, and in both cases the state — the segment table included — is
returned exactly as it was. -/
theorem C8_segment_validation (s : JPEGImage.State) (id data : List Nat)
    (mc : Bool) :
    JPEGImage.write mc s 0 id data = .error (.reservedSegment, s) ∧
    JPEGImage.write mc s 16 id data = .error (.invalidSegmentNumber, s) ∧
    PyErr.reservedSegment ≠ PyErr.invalidSegmentNumber := by
  refine ⟨?_, ?_, by decide⟩
  · unfold JPEGImage.write
    norm_num [JPEGImage.FREE_SEGMENTS]
  · unfold JPEGImage.write
    norm_num

/-! ## Claim C9 -/

/-- Claim C9: whenever `save` returns, its output is the original buffer up
to `app_seg_start`, then the serialized segments, then the original buffer
from `app_seg_end` on — and no successful `write` ever changes the buffer
or those two boundaries, so the bytes outside the scanned container region
are copied verbatim regardless of which writes occurred. -/
theorem C9_save_splices_buffer (s : JPEGImage.State) (out : List Nat)
    (h : JPEGImage.save s = .ok out) :
    (∃ mid, JPEGImage.assembleSegments s.segments = .ok mid ∧
      out = s.imageBytes.take s.appSegStart ++ mid ++
        s.imageBytes.drop s.appSegEnd) ∧
    (∀ (mc : Bool) (seg : Nat) (id data : List Nat) (s2 : JPEGImage.State),
      JPEGImage.write mc s seg id data = .ok s2 →
      s2.imageBytes = s.imageBytes ∧ s2.appSegStart = s.appSegStart ∧
        s2.appSegEnd = s.appSegEnd) := by
  constructor
  · unfold JPEGImage.save at h
    cases hA : JPEGImage.assembleSegments s.segments with
    | error e =>
      rw [hA] at h
      exact absurd h (by intro hc; cases hc)
    | ok mid =>
      rw [hA] at h
      have h2 := Except.ok.inj h
      exact ⟨mid, rfl, h2.symm⟩
  · intro mc seg id data s2 hw
    simp only [JPEGImage.write] at hw
    split at hw
    · exact absurd hw (by simp)
    · split at hw
      · exact absurd hw (by simp)
      · split at hw
        · exact absurd hw (by simp)
        · split at hw
          · exact absurd hw (by simp)
          · have h2 := JPEGImage.writeLoop_frame _ _ _ _ _ _ _ _ _ hw
            simpa using h2

theorem C9_witness :
    (∃ mid, JPEGImage.assembleSegments ([] : List (Nat × List JPEGImage.Frag)) = .ok mid ∧
      ([1, 3] : List Nat) = [1] ++ mid ++ [3]) ∧
    (∀ (mc : Bool) (seg : Nat) (id data : List Nat) (s2 : JPEGImage.State),
      JPEGImage.write mc ⟨[1, 2, 3], [], 1, 2⟩ seg id data = .ok s2 →
      s2.imageBytes = [1, 2, 3] ∧ s2.appSegStart = 1 ∧ s2.appSegEnd = 2) := by
  have h := C9_save_splices_buffer ⟨[1, 2, 3], [], 1, 2⟩ [1, 3] (by rfl)
  exact h

/-! ## Claim C4 -/

/-- Claim C4 counterexample: a successful multi-fragment JPEG `read` on a
parse-shaped table (fragment index `None`) overwrites the segment's fragment
list with indices re-read from the stored bytes, so the table after the
call differs from the table before it. -/
theorem C4_counterexample :
    JPEGImage.read true
        ⟨[], [(228, [(none, [0, 8, 116, 0, 1, 0, 65])])], 0, 0⟩ 4 [116] =
      .ok (some [65], ⟨[], [(228, [(some 0, [0, 8, 116, 0, 1, 0, 65])])], 0, 0⟩) ∧
    ([(228, [((none : Option Nat), [0, 8, 116, 0, 1, 0, 65])])] :
        List (Nat × List JPEGImage.Frag)) ≠
      [(228, [(some 0, [0, 8, 116, 0, 1, 0, 65])])] := by
  constructor
  · rfl
  · decide

/-- Claim C4 (amended): single-fragment JPEG reads never mutate the table,
and raising or no-data reads leave it unchanged; a multi-fragment JPEG read
however rewrites the requested segment's fragment list, retagging every
fragment with the index byte stored inside it, exactly when the segment is
present and every fragment passes the identifier and header checks.  (The
PNG `read` assigns to no instance attribute at all, which the embedding
reflects by returning no state.) -/
theorem C4_read_mutation (s : JPEGImage.State) (seg : Nat) (id : List Nat) :
    JPEGImage.readStateOf (JPEGImage.read false s seg id) = s ∧
    JPEGImage.readStateOf (JPEGImage.read true s seg id) =
      (match lookupKey s.segments (224 + seg) with
       | none => s
       | some frags =>
         match JPEGImage.retagFrags (id ++ [0]) frags with
         | .error _ => s
         | .ok nf => ⟨s.imageBytes, setKey s.segments (224 + seg) nf,
             s.appSegStart, s.appSegEnd⟩) := by
  constructor
  · unfold JPEGImage.read
    by_cases hk : hasKey s.segments (224 + seg)
    · simp only [hk, not_true_eq_false, if_false, Bool.not_eq_true, if_neg]
      cases hfr : (lookupKey s.segments (224 + seg)).getD [] with
      | nil => rfl
      | cons f t =>
        obtain ⟨i0, chunk⟩ := f
        dsimp only
        split
        · split
          · rfl
          · rfl
        · next hcon => exact absurd trivial hcon
    · simp [hk, JPEGImage.readStateOf]
  · unfold JPEGImage.read
    by_cases hk : hasKey s.segments (224 + seg)
    · obtain ⟨frags, hfr⟩ : ∃ l, lookupKey s.segments (224 + seg) = some l := by
        unfold hasKey at hk
        cases h : lookupKey s.segments (224 + seg) with
        | none => rw [h] at hk; simp at hk
        | some l => exact ⟨l, rfl⟩
      simp only [hk, not_true_eq_false, if_false, hfr, Option.getD_some]
      cases hre : JPEGImage.retagFrags (id ++ [0]) frags with
      | error e => rfl
      | ok nf =>
        dsimp only
        cases hso : JPEGImage.pySortFragsByIndex nf with
        | error e => rfl
        | ok sorted => rfl
    · have hnone : lookupKey s.segments (224 + seg) = none := by
        unfold hasKey at hk
        cases h : lookupKey s.segments (224 + seg) with
        | none => rfl
        | some l => rw [h] at hk; simp at hk
      simp [hk, hnone, JPEGImage.readStateOf]

/-! ## Claim C6 -/

/-- A minimal JPEG whose APP4 segment occurs twice, so that `parse` stores
two `None`-indexed fragments under one segment. -/
def twoFragJPEG : List Nat :=
  [255, 216, 255, 228, 0, 6, 1, 2, 3, 4, 255, 228, 0, 6, 5, 6, 7, 8, 255, 217]

/-- Claim C6 counterexample: on a table produced by `parse` alone — two
occurrences of APP4, hence two `None`-indexed fragments in one segment —
`save` raises `TypeError` (Python cannot order `None` against `None`),
rather than returning successfully. -/
theorem C6_counterexample :
    Except.bind (JPEGImage.parse twoFragJPEG) JPEGImage.save =
      .error .typeError := by
  rfl

/-- The fragment ordering the spec prescribes for `save`: by fragment index,
with indexless (singleton) fragments sorting first. -/
def specFragKey (f : JPEGImage.Frag) : Nat :=
  match f.1 with
  | none => 0
  | some n => n + 1

/-- `save` as §4.1 words it, as a total function: segments in ascending
numeric order; within each, fragments ordered by `fragment_index` with
no-index fragments first; each fragment behind its `0xFF (0xE0+n)` marker. -/
def specAssemble (segments : List (Nat × List JPEGImage.Frag)) : List Nat :=
  (pyStableSort (natKeyLt Prod.fst) segments).foldl (fun acc kv =>
    acc ++ (pyStableSort (natKeyLt specFragKey) kv.2).foldl
      (fun a f => a ++ 255 :: kv.1 :: f.2) []) []

/-- The spliced output the spec describes for `save`. -/
def specSave (s : JPEGImage.State) : List Nat :=
  s.imageBytes.take s.appSegStart ++ specAssemble s.segments ++
    s.imageBytes.drop s.appSegEnd

theorem pyStableSort_singleton (lt : α → α → Bool) (x : α) :
    pyStableSort lt [x] = [x] := rfl

theorem pySortFragsByIndex_spec (l : List JPEGImage.Frag)
    (h : l.length ≤ 1 ∨ ∀ f ∈ l, f.1 ≠ none) :
    JPEGImage.pySortFragsByIndex l =
      .ok (pyStableSort (natKeyLt specFragKey) l) := by
  unfold JPEGImage.pySortFragsByIndex
  by_cases hlen : l.length ≤ 1
  · rw [if_pos hlen]
    match l, hlen with
    | [], _ => rfl
    | [x], _ => rfl
  · rw [if_neg hlen]
    have hsome : ∀ f ∈ l, f.1 ≠ none := h.resolve_left hlen
    have hany : l.any (fun f => f.1.isNone) = false := by
      rw [List.any_eq_false]
      intro f hf
      have := hsome f hf
      cases hfa : f.1 with
      | none => exact absurd hfa this
      | some n => simp [hfa]
    rw [if_neg (by simp [hany])]
    congr 1
    refine pyStableSort_congr _ _ l ?_
    intro a ha b hb
    obtain ⟨na, hna⟩ := Option.ne_none_iff_exists.mp (hsome a ha)
    obtain ⟨nb, hnb⟩ := Option.ne_none_iff_exists.mp (hsome b hb)
    simp only [natKeyLt, JPEGImage.fragIndexKey, specFragKey, ← hna, ← hnb]
    simp only [decide_eq_decide]
    omega

theorem foldlM_assemble :
    ∀ (l : List (Nat × List JPEGImage.Frag)),
      (∀ kv ∈ l, JPEGImage.pySortFragsByIndex kv.2 =
        .ok (pyStableSort (natKeyLt specFragKey) kv.2)) →
      ∀ acc : List Nat,
      l.foldlM (fun (acc : List Nat) (kv : Nat × List JPEGImage.Frag) => do
          let sortedFrags ← JPEGImage.pySortFragsByIndex kv.2
          pure (acc ++ sortedFrags.foldl
            (fun (a : List Nat) (f : JPEGImage.Frag) => a ++ 255 :: kv.1 :: f.2) []))
        acc =
      .ok (l.foldl (fun (acc : List Nat) (kv : Nat × List JPEGImage.Frag) =>
        acc ++ (pyStableSort (natKeyLt specFragKey) kv.2).foldl
          (fun (a : List Nat) (f : JPEGImage.Frag) => a ++ 255 :: kv.1 :: f.2) []) acc)
  | [], _, acc => rfl
  | kv :: t, h, acc => by
    rw [List.foldlM_cons, h kv (by simp)]
    show t.foldlM _ _ = _
    rw [foldlM_assemble t (fun x hx => h x (by simp [hx]))]
    rfl

theorem assembleSegments_spec (segments : List (Nat × List JPEGImage.Frag))
    (h : ∀ kv ∈ segments, kv.2.length ≤ 1 ∨ ∀ f ∈ kv.2, f.1 ≠ none) :
    JPEGImage.assembleSegments segments = .ok (specAssemble segments) := by
  unfold JPEGImage.assembleSegments specAssemble
  exact foldlM_assemble (pyStableSort (natKeyLt Prod.fst) segments)
    (fun kv hkv => pySortFragsByIndex_spec kv.2
      (h kv ((mem_pyStableSort _ segments kv).mp hkv))) []

/-- Claim C6 (amended): `save` emits segments in ascending numeric order and
fragments within a segment by ascending `fragment_index` — and returns
successfully — provided every segment's fragment list is either a singleton
(or empty) or carries only integer indices.  On a segment with two or more
fragments among which a `None` index appears (e.g. any table in which
`parse` recorded a repeated marker), the `sorted` call raises `TypeError`
instead, so `save` does not always return. -/
theorem C6_save_ordering (s : JPEGImage.State)
    (h : ∀ kv ∈ s.segments, kv.2.length ≤ 1 ∨ ∀ f ∈ kv.2, f.1 ≠ none) :
    JPEGImage.save s = .ok (specSave s) := by
  unfold JPEGImage.save specSave
  rw [assembleSegments_spec s.segments h]
  rfl

theorem C6_witness :
    JPEGImage.save ⟨[1, 2], [(230, [(some 0, [7]), (some 1, [8])]),
        (228, [(none, [9])])], 1, 1⟩ =
      .ok (specSave ⟨[1, 2], [(230, [(some 0, [7]), (some 1, [8])]),
        (228, [(none, [9])])], 1, 1⟩) := by
  refine C6_save_ordering _ ?_
  intro kv hkv
  simp only [List.mem_cons, List.not_mem_nil, or_false] at hkv
  rcases hkv with h | h
  · subst h
    right
    decide
  · subst h
    left
    decide

/-! ## Claim C7 -/

/-- The `current_chunk` byte stored inside a fragment: the second element of
the 2-byte slice at `chunk[2+len(ident):2+len(ident)+2]`. -/
def fragStoredIdx (ident : List Nat) (f : JPEGImage.Frag) : Nat :=
  (pySlice f.2 (2 + ident.length) (2 + ident.length + 2)).getD 1 0

theorem retagFrags_eq_map (ident : List Nat) : ∀ (l : List JPEGImage.Frag),
    (∀ f ∈ l, (f.2.drop 2).take ident.length = ident ∧
      2 + ident.length + 2 ≤ f.2.length) →
    JPEGImage.retagFrags ident l =
      .ok (l.map (fun f => (some (fragStoredIdx ident f), f.2)))
  | [], _ => rfl
  | (i0, chunk) :: t, h => by
    have hc := h (i0, chunk) (by simp)
    unfold JPEGImage.retagFrags
    rw [if_neg (by simp only [hc.1]; exact fun hne => hne rfl)]
    have hc2 : 2 + ident.length + 2 ≤ chunk.length := hc.2
    have hlen2 : (pySlice chunk (2 + ident.length) (2 + ident.length + 2)).length = 2 := by
      unfold pySlice
      rw [List.length_take, List.length_drop]
      omega
    obtain ⟨x, y, hxy⟩ :
        ∃ x y, pySlice chunk (2 + ident.length) (2 + ident.length + 2) = [x, y] := by
      cases hm : pySlice chunk (2 + ident.length) (2 + ident.length + 2) with
      | nil => rw [hm] at hlen2; simp at hlen2
      | cons a r =>
        cases r with
        | nil => rw [hm] at hlen2; simp at hlen2
        | cons b r2 =>
          cases r2 with
          | nil => exact ⟨a, b, rfl⟩
          | cons c r3 => rw [hm] at hlen2; simp at hlen2
    rw [hxy, retagFrags_eq_map ident t (fun f hf => h f (by simp [hf]))]
    have hy : fragStoredIdx ident (i0, chunk) = y := by
      unfold fragStoredIdx
      rw [hxy]
      rfl
    rw [List.map_cons, hy]
    rfl

/-- `sorted(..., key=lambda x: x[0])` on fragments whose indices are all
integers succeeds with the stable sort by index. -/
theorem pySortFragsByIndex_all_some (l : List JPEGImage.Frag)
    (h : ∀ f ∈ l, f.1.isSome) :
    JPEGImage.pySortFragsByIndex l =
      .ok (pyStableSort (natKeyLt JPEGImage.fragIndexKey) l) := by
  unfold JPEGImage.pySortFragsByIndex
  by_cases hlen : l.length ≤ 1
  · rw [if_pos hlen]
    match l, hlen with
    | [], _ => rfl
    | [x], _ => rfl
  · rw [if_neg hlen]
    have hany : l.any (fun f => f.1.isNone) = false := by
      rw [List.any_eq_false]
      intro f hf
      have := h f hf
      simp [Option.isNone, Option.isSome] at this ⊢
      cases hfa : f.1 with
      | none => rw [hfa] at this; cases this
      | some n => simp
    rw [if_neg (by simp [hany])]

/-- Sorting by a key is input-order independent when the keys are pairwise
distinct. -/
theorem pyStableSort_natKey_perm_eq (key : α → Nat) (l₁ l₂ : List α)
    (hp : l₁.Perm l₂) (hnd : (l₁.map key).Nodup) :
    pyStableSort (natKeyLt key) l₁ = pyStableSort (natKeyLt key) l₂ := by
  refine eq_of_perm_of_pairwise_of_nodup_keys key
    ((pyStableSort_perm _ l₁).trans (hp.trans (pyStableSort_perm _ l₂).symm))
    (pairwise_pyStableSort_natKey key l₁)
    (pairwise_pyStableSort_natKey key l₂) ?_
  have hpm := (pyStableSort_perm (natKeyLt key) l₁).map key
  exact hpm.nodup_iff.mpr hnd

/-- Claim C7 counterexample: two fragments carrying the same stored
`fragment_index` byte 0 — a multi-fragment segment whose fragments all carry
the expected identifier header.  Swapping their storage order changes what
`read` returns (CPython's sort is stable, so ties keep storage order): the
result is not independent of the order fragments are stored in. -/
theorem C7_counterexample :
    ([((none : Option Nat), [0, 8, 116, 0, 1, 0, 65]),
      (none, [0, 8, 116, 0, 1, 0, 66])] : List JPEGImage.Frag).Perm
      [(none, [0, 8, 116, 0, 1, 0, 66]), (none, [0, 8, 116, 0, 1, 0, 65])] ∧
    JPEGImage.read true ⟨[], [(228, [(none, [0, 8, 116, 0, 1, 0, 65]),
        (none, [0, 8, 116, 0, 1, 0, 66])])], 0, 0⟩ 4 [116] =
      .ok (some [65, 66], ⟨[], [(228, [(some 0, [0, 8, 116, 0, 1, 0, 65]),
        (some 0, [0, 8, 116, 0, 1, 0, 66])])], 0, 0⟩) ∧
    JPEGImage.read true ⟨[], [(228, [(none, [0, 8, 116, 0, 1, 0, 66]),
        (none, [0, 8, 116, 0, 1, 0, 65])])], 0, 0⟩ 4 [116] =
      .ok (some [66, 65], ⟨[], [(228, [(some 0, [0, 8, 116, 0, 1, 0, 66]),
        (some 0, [0, 8, 116, 0, 1, 0, 65])])], 0, 0⟩) ∧
    ([65, 66] : List Nat) ≠ [66, 65] := by
  exact ⟨List.Perm.swap _ _ _, rfl, rfl, by decide⟩

/-- Full evaluation of a multi-fragment `read` on a single-segment table
whose fragments all pass the identifier and header checks. -/
theorem read_multi_ok (img : List Nat) (st ed seg : Nat) (id : List Nat)
    (l : List JPEGImage.Frag)
    (hv : ∀ f ∈ l, (f.2.drop 2).take (id ++ [0]).length = id ++ [0] ∧
      2 + (id ++ [0]).length + 2 ≤ f.2.length) :
    JPEGImage.read true ⟨img, [(224 + seg, l)], st, ed⟩ seg id =
      .ok (some ((pyStableSort (natKeyLt JPEGImage.fragIndexKey)
          (l.map (fun f => (some (fragStoredIdx (id ++ [0]) f), f.2)))).foldl
          (fun acc f => acc ++ f.2.drop (2 + (id ++ [0]).length + 2)) []),
        ⟨img, [(224 + seg,
          l.map (fun f => (some (fragStoredIdx (id ++ [0]) f), f.2)))], st, ed⟩) := by
  unfold JPEGImage.read
  have hlk : lookupKey ([(224 + seg, l)] : List (Nat × List JPEGImage.Frag))
      (224 + seg) = some l := by
    simp [lookupKey]
  have hk : hasKey ([(224 + seg, l)] : List (Nat × List JPEGImage.Frag))
      (224 + seg) = true := by
    simp [hasKey, hlk]
  have hsorted := pySortFragsByIndex_all_some
      (l.map (fun f => (some (fragStoredIdx (id ++ [0]) f), f.2)))
      (by
        intro f hf
        simp only [List.mem_map] at hf
        obtain ⟨g, _, he⟩ := hf
        rw [← he]
        rfl)
  simp only [hk, not_true_eq_false, if_false, hlk, Option.getD_some,
    Bool.not_eq_true, Bool.true_eq_false, retagFrags_eq_map (id ++ [0]) l hv,
    hsorted]
  simp [setKey]

/-- Claim C7 (amended): for a multi-fragment JPEG segment whose stored
fragments all carry the expected identifier header — and whose stored
`fragment_index` bytes are pairwise distinct, as every list written by
`write` is — `read` returns the concatenation ordered by the stored index
byte, independent of the order the fragments are stored in: any reordering
of the fragment list produces the same result.  (With duplicate index bytes
the stable sort preserves storage order, so the result is order-dependent;
see the counterexample.) -/
theorem C7_fragment_order_independence (img : List Nat) (st ed seg : Nat)
    (id : List Nat) (l₁ l₂ : List JPEGImage.Frag)
    (hperm : l₁.Perm l₂)
    (hv : ∀ f ∈ l₁, (f.2.drop 2).take (id ++ [0]).length = id ++ [0] ∧
      2 + (id ++ [0]).length + 2 ≤ f.2.length)
    (hnd : (l₁.map (fragStoredIdx (id ++ [0]))).Nodup) :
    (JPEGImage.read true ⟨img, [(224 + seg, l₁)], st, ed⟩ seg id).map Prod.fst =
    (JPEGImage.read true ⟨img, [(224 + seg, l₂)], st, ed⟩ seg id).map Prod.fst := by
  have hv₂ : ∀ f ∈ l₂, (f.2.drop 2).take (id ++ [0]).length = id ++ [0] ∧
      2 + (id ++ [0]).length + 2 ≤ f.2.length :=
    fun f hf => hv f (hperm.mem_iff.mpr hf)
  rw [read_multi_ok img st ed seg id l₁ hv, read_multi_ok img st ed seg id l₂ hv₂]
  have hmapperm :
      (l₁.map (fun f => ((some (fragStoredIdx (id ++ [0]) f) : Option Nat), f.2))).Perm
        (l₂.map (fun f => (some (fragStoredIdx (id ++ [0]) f), f.2))) :=
    hperm.map _
  have hndmap :
      ((l₁.map (fun f => ((some (fragStoredIdx (id ++ [0]) f) : Option Nat), f.2))).map
        JPEGImage.fragIndexKey).Nodup := by
    rw [List.map_map]
    exact hnd
  rw [pyStableSort_natKey_perm_eq JPEGImage.fragIndexKey _ _ hmapperm hndmap]
  rfl

theorem C7_witness :
    (JPEGImage.read true ⟨[], [(224 + 4, [(none, [0, 8, 116, 0, 2, 0, 9]),
        (none, [0, 8, 116, 0, 2, 1, 8])])], 0, 0⟩ 4 [116]).map Prod.fst =
    (JPEGImage.read true ⟨[], [(224 + 4, [(none, [0, 8, 116, 0, 2, 1, 8]),
        (none, [0, 8, 116, 0, 2, 0, 9])])], 0, 0⟩ 4 [116]).map Prod.fst :=
  C7_fragment_order_independence [] 0 0 4 [116] _ _ (List.Perm.swap _ _ _)
    (by decide) (by decide)

/-! ## Claim C5 -/

theorem packU16_error (n : Nat) (e : PyErr) (h : packU16 n = .error e) :
    e = .overflowError := by
  unfold packU16 at h
  by_cases hn : n < 65536
  · rw [if_pos hn] at h; cases h
  · rw [if_neg hn] at h; injection h with h2; exact h2.symm

/-- Building a multi-fragment `segment_data` with a fragment count of 256 or
more always overflows a one-byte pack call. -/
theorem buildFrag_overflow (ident data : List Nat) (cs tc i : Nat)
    (htc : 256 ≤ tc) :
    JPEGImage.buildFrag true ident data cs tc i = .error .overflowError := by
  have h8 : packU8 tc = .error .overflowError := by
    unfold packU8
    rw [if_neg (by omega)]
  unfold JPEGImage.buildFrag
  dsimp only
  rw [show (if (true : Bool) then 2 else 0) = 2 from rfl]
  cases hp : packU16 ((pySlice data (i * cs) ((i + 1) * cs)).length +
      ident.length + 2 + 2) with
  | error e =>
    rw [packU16_error _ _ hp]
    rfl
  | ok lenB =>
    rw [h8]
    rfl

theorem writeLoop_cons_error (mc : Bool) (seg : Nat) (ident data : List Nat)
    (cs tc i : Nat) (rest : List Nat) (st : JPEGImage.State) (e : PyErr)
    (hb : JPEGImage.buildFrag mc ident data cs tc i = .error e) :
    JPEGImage.writeLoop mc seg ident data cs tc (i :: rest) st =
      .error (e, st) := by
  simp only [JPEGImage.writeLoop, hb]

/-- Claim C5 check at the boundary, identifier `"x"`: with the NUL appended
the identifier occupies 2 bytes, so `chunk_size = (63535 - (2+2)) - 1 =
63530` and `max_size = 256 * 63530 = 16263680`.  A payload of exactly
`max_size` bytes passes the size check but needs `ceil(16263680/63530) =
256` fragments, and packing `total_chunks = 256` into the one-byte
`UInt8` field overflows while building the very first fragment — after the
segment's previous fragment list has already been cleared.  The write does
not succeed as the claim (and the spec's capacity boundary) state. -/
theorem C5_write_at_max_total_overflows (s : JPEGImage.State)
    (data : List Nat) (h : data.length = 16263680) :
    JPEGImage.write true s 4 [120] data =
      .error (.overflowError,
        ⟨s.imageBytes, setKey s.segments 228 [], s.appSegStart, s.appSegEnd⟩) := by
  simp only [JPEGImage.write]
  rw [if_neg (by norm_num), if_neg (by norm_num [JPEGImage.FREE_SEGMENTS])]
  norm_num [h]
  rw [show (JPEGImage.pyCeilDiv 16263680 63530).toNat = 256 from by decide,
    show (Int.toNat 63530) = 63530 from rfl]
  have hr : List.range 256 = 0 :: List.map Nat.succ (List.range 255) := by
    rw [show (256 : Nat) = 255 + 1 from rfl]
    exact List.range_succ_eq_map 255
  rw [hr]
  exact writeLoop_cons_error true 228 [120, 0] data 63530 256 0 _ _ _
    (buildFrag_overflow [120, 0] data 63530 256 0 (by norm_num))

theorem C5_witness :
    JPEGImage.write true ⟨[], [], 0, 0⟩ 4 [120] (List.replicate 16263680 0) =
      .error (.overflowError, ⟨[], setKey [] 228 [], 0, 0⟩) :=
  C5_write_at_max_total_overflows ⟨[], [], 0, 0⟩ _ (by rw [List.length_replicate])

/-! ## Claim C3 -/

set_option maxRecDepth 4000 in
/-- Claim C3 check: `"tEXt"` is a standard PNG chunk type name, yet both
`PNGImage.write` and `PNGImage.read` accept it and proceed.  The guard
`chunk_type in self.PNG_CHUNKS` compares the `str` argument against `bytes`
constants — never equal in Python 3 — and the only other checks are the
length-4 test and the uppercase-first-letter test, which `"tEXt"` passes.
`write("tEXt", "i", b"7")` therefore stores a chunk under the standard name
(with its CRC-32), and `read` on such a state returns the payload. -/
theorem C3_standard_chunk_type_accepted :
    PNGImage.write ⟨[], []⟩ [116, 69, 88, 116] [105] [55] =
      .ok ⟨[], [([116, 69, 88, 116],
        ⟨3, [116, 69, 88, 116], [105, 0, 55], 3378206456⟩)]⟩ ∧
    PNGImage.read ⟨[], [([116, 69, 88, 116],
        ⟨3, [116, 69, 88, 116], [105, 0, 55], 3378206456⟩)]⟩
        [116, 69, 88, 116] [105] =
      .ok [55] := by
  exact ⟨rfl, rfl⟩

/-! ## Claim C2 -/

theorem lookupKey_setKey_self [DecidableEq κ] (k : κ) (v : ν) :
    ∀ m : List (κ × ν), lookupKey (setKey m k v) k = some v
  | [] => by simp [setKey, lookupKey]
  | (k0, v0) :: t => by
    by_cases h : k0 = k
    · simp [setKey, h, lookupKey]
    · simp only [setKey, if_neg h, lookupKey]
      exact lookupKey_setKey_self k v t

theorem lookupKey_setKey_ne [DecidableEq κ] (k k2 : κ) (v : ν) (hne : k2 ≠ k) :
    ∀ m : List (κ × ν), lookupKey (setKey m k v) k2 = lookupKey m k2
  | [] => by
    simp only [setKey, lookupKey]
    rw [if_neg (fun h => hne h.symm)]
  | (k0, v0) :: t => by
    by_cases h : k0 = k
    · subst h
      simp only [setKey, if_pos rfl, lookupKey]
      rw [if_neg (fun hc => hne hc.symm), if_neg (fun hc => hne hc.symm)]
    · simp only [setKey, if_neg h, lookupKey]
      by_cases h2 : k0 = k2
      · rw [if_pos h2, if_pos h2]
      · rw [if_neg h2, if_neg h2]
        exact lookupKey_setKey_ne k k2 v hne t

theorem mem_setKey [DecidableEq κ] (k : κ) (v : ν) :
    ∀ (m : List (κ × ν)) (kv : κ × ν), kv ∈ setKey m k v → kv = (k, v) ∨ kv ∈ m
  | [], kv, h => by simpa [setKey] using h
  | (k0, v0) :: t, kv, h => by
    by_cases hk : k0 = k
    · simp only [setKey, if_pos hk, List.mem_cons] at h
      rcases h with h | h
      · exact Or.inl h
      · exact Or.inr (List.mem_cons_of_mem _ h)
    · simp only [setKey, if_neg hk, List.mem_cons] at h
      rcases h with h | h
      · exact Or.inr (by simp [h])
      · rcases mem_setKey k v t kv h with h2 | h2
        · exact Or.inl h2
        · exact Or.inr (by simp [h2])

theorem keys_setKey [DecidableEq κ] (k : κ) (v : ν) :
    ∀ m : List (κ × ν),
      (setKey m k v).map Prod.fst = m.map Prod.fst ∨
      (setKey m k v).map Prod.fst = m.map Prod.fst ++ [k]
  | [] => by simp [setKey]
  | (k0, v0) :: t => by
    by_cases hk : k0 = k
    · subst hk
      simp [setKey]
    · simp only [setKey, if_neg hk, List.map_cons]
      rcases keys_setKey k v t with h | h
      · exact Or.inl (by rw [h])
      · exact Or.inr (by rw [h]; rfl)

theorem nodup_keys_setKey [DecidableEq κ] (k : κ) (v : ν) :
    ∀ m : List (κ × ν), (m.map Prod.fst).Nodup →
      ((setKey m k v).map Prod.fst).Nodup
  | [], _ => by simp [setKey]
  | (k0, v0) :: t, hnd => by
    rw [List.map_cons, List.nodup_cons] at hnd
    by_cases hk : k0 = k
    · subst hk
      simpa [setKey] using hnd
    · simp only [setKey, if_neg hk, List.map_cons, List.nodup_cons]
      refine ⟨?_, nodup_keys_setKey k v t hnd.2⟩
      rcases keys_setKey k v t with h | h
      · rw [h]; exact hnd.1
      · rw [h]
        simp only [List.mem_append, List.mem_singleton]
        rintro (hc | hc)
        · exact hnd.1 hc
        · exact hk hc

theorem lookupKey_none_iff [DecidableEq κ] (k : κ) :
    ∀ m : List (κ × ν), lookupKey m k = none ↔ k ∉ m.map Prod.fst
  | [] => by simp [lookupKey]
  | (k0, v0) :: t => by
    by_cases hk : k0 = k
    · simp [lookupKey, hk]
    · simp only [lookupKey, if_neg hk, List.map_cons, List.mem_cons]
      rw [lookupKey_none_iff k t]
      constructor
      · intro h hc
        rcases hc with hc | hc
        · exact hk hc.symm
        · exact h hc
      · intro h hc
        exact h (Or.inr hc)

theorem lookupKey_mem [DecidableEq κ] (k : κ) (v : ν) :
    ∀ m : List (κ × ν), lookupKey m k = some v → (k, v) ∈ m
  | [], h => by cases h
  | (k0, v0) :: t, h => by
    by_cases hk : k0 = k
    · rw [lookupKey, if_pos hk] at h
      injection h with h2
      simp [← hk, h2]
    · rw [lookupKey, if_neg hk] at h
      exact List.mem_cons_of_mem _ (lookupKey_mem k v t h)

/-- The four big-endian bytes of a 32-bit value. -/
def u32Bytes (n : Nat) : List Nat :=
  [n / 16777216, n / 65536 % 256, n / 256 % 256, n % 256]

theorem length_u32Bytes (n : Nat) : (u32Bytes n).length = 4 := rfl

theorem packU32_ok (n : Nat) (h : n < 4294967296) :
    packU32 n = .ok (u32Bytes n) := by
  unfold packU32 u32Bytes
  rw [if_pos h]

theorem unpackU32_u32Bytes (n : Nat) (h : n < 4294967296) :
    unpackU32 (u32Bytes n) = .ok n := by
  unfold unpackU32 u32Bytes
  simp only [Except.ok.injEq]
  omega

namespace PNGImage

/-- Well-formedness of a chunk tuple: the recorded length equals the data
length (as `parse` and `write` both guarantee), the type tag is 4 bytes, and
the two packed fields fit 32 bits. -/
def WFChunk (c : Chunk) : Prop :=
  c.type.length = 4 ∧ c.length = c.data.length ∧
    c.length < 4294967296 ∧ c.crc < 4294967296

/-- Well-formedness of a `PNGImage` state: standard chunks are well-formed
with standard types, custom chunks are keyed by their own non-standard type,
and the dictionary keys are distinct. -/
def WFState (s : State) : Prop :=
  (∀ c ∈ s.chunks, WFChunk c ∧ c.type ∈ PNG_CHUNKS) ∧
  (∀ kv ∈ s.customChunks, kv.1 = kv.2.type ∧ WFChunk kv.2 ∧
    kv.2.type ∉ PNG_CHUNKS) ∧
  (s.customChunks.map Prod.fst).Nodup

/-- The bytes one chunk contributes to the `save` output. -/
def chunkOut (c : Chunk) : List Nat :=
  u32Bytes c.length ++ c.type ++ c.data ++ u32Bytes c.crc

theorem serializeChunk_ok (c : Chunk) (h1 : c.length < 4294967296)
    (h2 : c.crc < 4294967296) :
    serializeChunk c = .ok (chunkOut c) := by
  unfold serializeChunk chunkOut
  rw [packU32_ok c.length h1, packU32_ok c.crc h2]
  rfl

theorem length_chunkOut (c : Chunk) (h : c.type.length = 4)
    (h2 : c.length = c.data.length) : (chunkOut c).length = 12 + c.length := by
  unfold chunkOut
  simp [length_u32Bytes, h, h2]
  omega

theorem foldSerialize :
    ∀ (l : List Chunk),
      (∀ c ∈ l, c.length < 4294967296 ∧ c.crc < 4294967296) →
      ∀ acc : List Nat,
      l.foldlM (fun (acc : List Nat) (c : Chunk) => do
          let e ← serializeChunk c
          pure (acc ++ e)) acc =
        .ok (acc ++ (l.map chunkOut).flatten)
  | [], _, acc => by
    show Except.ok acc = _
    simp
  | c :: t, h, acc => by
    rw [List.foldlM_cons, serializeChunk_ok c (h c (by simp)).1 (h c (by simp)).2]
    show t.foldlM _ _ = _
    rw [foldSerialize t (fun x hx => h x (by simp [hx]))]
    simp

/-- The chunk sequence `save` emits, in order. -/
def emittedChunks (s : State) : List Chunk :=
  s.chunks.take 1 ++
    (pyStableSort (fun a b => bytesLt a.1 b.1) s.customChunks).map Prod.snd ++
    s.chunks.drop 1

theorem save_ok (s : State)
    (h : ∀ c ∈ emittedChunks s, c.length < 4294967296 ∧ c.crc < 4294967296) :
    save s = .ok (HEADER ++ ((emittedChunks s).map chunkOut).flatten) := by
  unfold save
  exact foldSerialize (emittedChunks s) h HEADER

end PNGImage

theorem drop_cursor_append (b : List Nat) (cursor : Nat) (pre rest : List Nat)
    (h : b.drop cursor = pre ++ rest) :
    b.drop (cursor + pre.length) = rest := by
  rw [← List.drop_drop, h, List.drop_left]

theorem take_of_drop_append (b : List Nat) (cursor : Nat) (pre rest : List Nat)
    (h : b.drop cursor = pre ++ rest) :
    pySlice b cursor (cursor + pre.length) = pre := by
  unfold pySlice
  rw [h, Nat.add_sub_cancel_left, List.take_left]

namespace PNGImage

/-- One classification step of the `parse` loop: standard chunks append to
`self.chunks`, others key into `self.custom_chunks`. -/
def pngClassify (acc : List Chunk × List (List Nat × Chunk)) (c : Chunk) :
    List Chunk × List (List Nat × Chunk) :=
  if c.type ∈ PNG_CHUNKS then (acc.1 ++ [c], acc.2)
  else (acc.1, setKey acc.2 c.type c)

theorem exceptBindOk (a : α) (f : α → Except ε β) :
    (Except.ok a >>= f) = f a := rfl

theorem parseLoop_serialized :
    ∀ (cl : List Chunk) (fuel cursor : Nat) (b : List Nat)
      (std : List Chunk) (cus : List (List Nat × Chunk)),
      (∀ c ∈ cl, WFChunk c) →
      b.drop cursor = (cl.map chunkOut).flatten →
      b.length = cursor + ((cl.map chunkOut).flatten).length →
      cl.length < fuel →
      parseLoop b fuel cursor std cus = .ok (cl.foldl pngClassify (std, cus))
  | [], fuel, cursor, b, std, cus, _, hdrop, hlen, hfuel => by
    match fuel, hfuel with
    | f + 1, _ =>
      simp only [List.map_nil, List.flatten_nil, List.length_nil] at hlen
      rw [parseLoop, if_neg (by omega)]
      rfl
  | c :: cl, fuel, cursor, b, std, cus, hwf, hdrop, hlen, hfuel => by
    match fuel, hfuel with
    | f + 1, hfuel =>
      have hw := hwf c (by simp)
      obtain ⟨hwt, hwd, hwl, hwc⟩ := hw
      have hchunklen : (chunkOut c).length = 12 + c.length :=
        length_chunkOut c hwt hwd
      have hflat : (((c :: cl).map chunkOut).flatten) =
          chunkOut c ++ ((cl.map chunkOut).flatten) := by
        simp
      rw [hflat] at hdrop hlen
      have hcur : cursor < b.length := by
        rw [List.length_append, hchunklen] at hlen
        omega
      have hd0 : b.drop cursor = u32Bytes c.length ++
          (c.type ++ (c.data ++ (u32Bytes c.crc ++ (cl.map chunkOut).flatten))) := by
        simpa [chunkOut, List.append_assoc] using hdrop
      have h1 : pySlice b cursor (cursor + 4) = u32Bytes c.length :=
        take_of_drop_append b cursor _ _ hd0
      have hd1 : b.drop (cursor + 4) =
          c.type ++ (c.data ++ (u32Bytes c.crc ++ (cl.map chunkOut).flatten)) :=
        drop_cursor_append b cursor _ _ hd0
      have h2 : pySlice b (cursor + 4) (cursor + 4 + 4) = c.type := by
        have := take_of_drop_append b (cursor + 4) c.type _ hd1
        rwa [hwt] at this
      have hd2 : b.drop (cursor + 4 + 4) =
          c.data ++ (u32Bytes c.crc ++ (cl.map chunkOut).flatten) := by
        have := drop_cursor_append b (cursor + 4) c.type _ hd1
        rwa [hwt] at this
      have h3 : pySlice b (cursor + 4 + 4) (cursor + 4 + 4 + c.length) = c.data := by
        have := take_of_drop_append b (cursor + 4 + 4) c.data _ hd2
        rwa [← hwd] at this
      have hd3 : b.drop (cursor + 4 + 4 + c.length) =
          u32Bytes c.crc ++ (cl.map chunkOut).flatten := by
        have := drop_cursor_append b (cursor + 4 + 4) c.data _ hd2
        rwa [← hwd] at this
      have h4 : pySlice b (cursor + 4 + 4 + c.length)
          (cursor + 4 + 4 + c.length + 4) = u32Bytes c.crc :=
        take_of_drop_append b (cursor + 4 + 4 + c.length) _ _ hd3
      have hd4 : b.drop (cursor + 4 + 4 + c.length + 4) =
          (cl.map chunkOut).flatten :=
        drop_cursor_append b (cursor + 4 + 4 + c.length) _ _ hd3
      rw [parseLoop, if_pos hcur, h1, unpackU32_u32Bytes _ hwl]
      dsimp only
      simp only [exceptBindOk]
      rw [h2, h3, h4, unpackU32_u32Bytes _ hwc]
      simp only [exceptBindOk]
      have hlen2 : b.length =
          (cursor + 4 + 4 + c.length + 4) + ((cl.map chunkOut).flatten).length := by
        rw [List.length_append, hchunklen] at hlen
        omega
      have hfuel2 : cl.length < f := by
        simp only [List.length_cons] at hfuel
        omega
      have hwf2 : ∀ x ∈ cl, WFChunk x := fun x hx => hwf x (by simp [hx])
      rw [List.foldl_cons]
      by_cases hstd : c.type ∈ PNG_CHUNKS
      · rw [if_pos hstd]
        have := parseLoop_serialized cl f (cursor + 4 + 4 + c.length + 4) b
          (std ++ [c]) cus hwf2 hd4 hlen2 hfuel2
        rw [show pngClassify (std, cus) c = (std ++ [c], cus) from by
          simp [pngClassify, hstd]]
        exact this
      · rw [if_neg hstd]
        have := parseLoop_serialized cl f (cursor + 4 + 4 + c.length + 4) b
          std (setKey cus c.type c) hwf2 hd4 hlen2 hfuel2
        rw [show pngClassify (std, cus) c = (std, setKey cus c.type c) from by
          simp [pngClassify, hstd]]
        exact this

theorem flatten_chunkOut_ge (cl : List Chunk) (hwf : ∀ c ∈ cl, WFChunk c) :
    cl.length ≤ ((cl.map chunkOut).flatten).length := by
  induction cl with
  | nil => simp
  | cons c t ih =>
    simp only [List.map_cons, List.flatten_cons, List.length_append,
      List.length_cons]
    have h1 : (chunkOut c).length = 12 + c.length :=
      length_chunkOut c (hwf c (by simp)).1 (hwf c (by simp)).2.1
    have h2 := ih (fun x hx => hwf x (by simp [hx]))
    omega

theorem parse_serialized (cl : List Chunk) (hwf : ∀ c ∈ cl, WFChunk c) :
    parse (HEADER ++ (cl.map chunkOut).flatten) =
      .ok ⟨(cl.foldl pngClassify ([], [])).1, (cl.foldl pngClassify ([], [])).2⟩ := by
  unfold parse
  have hdrop : (HEADER ++ (cl.map chunkOut).flatten).drop HEADER.length =
      (cl.map chunkOut).flatten := List.drop_left HEADER _
  have hlen : (HEADER ++ (cl.map chunkOut).flatten).length =
      HEADER.length + ((cl.map chunkOut).flatten).length := by
    simp
  have hfuel : cl.length < (HEADER ++ (cl.map chunkOut).flatten).length + 1 := by
    have := flatten_chunkOut_ge cl hwf
    rw [hlen]
    omega
  rw [parseLoop_serialized cl _ HEADER.length _ [] [] hwf hdrop hlen hfuel]
  rfl

theorem foldl_classify_std (l : List Chunk) (h : ∀ c ∈ l, c.type ∈ PNG_CHUNKS) :
    ∀ (std : List Chunk) (cus : List (List Nat × Chunk)),
      l.foldl pngClassify (std, cus) = (std ++ l, cus) := by
  induction l with
  | nil => intro std cus; simp
  | cons c t ih =>
    intro std cus
    rw [List.foldl_cons,
      show pngClassify (std, cus) c = (std ++ [c], cus) from by
        simp [pngClassify, h c (by simp)],
      ih (fun x hx => h x (by simp [hx]))]
    simp

theorem foldl_classify_custom (l : List Chunk) (h : ∀ c ∈ l, c.type ∉ PNG_CHUNKS) :
    ∀ (std : List Chunk) (cus : List (List Nat × Chunk)),
      l.foldl pngClassify (std, cus) =
        (std, l.foldl (fun m c => setKey m c.type c) cus) := by
  induction l with
  | nil => intro std cus; simp
  | cons c t ih =>
    intro std cus
    rw [List.foldl_cons,
      show pngClassify (std, cus) c = (std, setKey cus c.type c) from by
        simp [pngClassify, h c (by simp)],
      ih (fun x hx => h x (by simp [hx])), List.foldl_cons]

theorem lookup_foldl_setKey_absent (k : List Nat) :
    ∀ (l : List Chunk), (∀ c ∈ l, c.type ≠ k) →
      ∀ m, lookupKey (l.foldl (fun m c => setKey m c.type c) m) k = lookupKey m k
  | [], _, m => rfl
  | c :: t, h, m => by
    rw [List.foldl_cons,
      lookup_foldl_setKey_absent k t (fun x hx => h x (by simp [hx])),
      lookupKey_setKey_ne _ _ _ (fun hc => h c (by simp) hc.symm) m]

theorem lookup_foldl_setKey_found (k : List Nat) (c0 : Chunk) :
    ∀ (l : List Chunk), c0 ∈ l → c0.type = k →
      (l.map (fun c => c.type)).Nodup →
      ∀ m, lookupKey (l.foldl (fun m c => setKey m c.type c) m) k = some c0
  | [], hmem, _, _, _ => absurd hmem (by simp)
  | c :: t, hmem, hk, hnd, m => by
    rw [List.map_cons, List.nodup_cons] at hnd
    rcases List.mem_cons.mp hmem with hc | hc
    · subst hc
      rw [List.foldl_cons]
      have habs : ∀ x ∈ t, x.type ≠ k := by
        intro x hx hc
        refine hnd.1 ?_
        rw [hk, ← hc]
        exact List.mem_map_of_mem _ hx
      rw [lookup_foldl_setKey_absent k t habs, hk, lookupKey_setKey_self]
    · rw [List.foldl_cons]
      exact lookup_foldl_setKey_found k c0 t hc hk hnd.2 _

end PNGImage

namespace PNGImage

theorem write_ok_eval (s : State) (ct id data : List Nat)
    (h4 : ct.length = 4) (hup : pyIsUpperByte (ct.headD 0) = false) :
    write s ct id data = .ok ⟨s.chunks,
      setKey s.customChunks ct
        ⟨((id ++ [0]) ++ data).length, ct, (id ++ [0]) ++ data,
          crc32 (ct ++ ((id ++ [0]) ++ data))⟩⟩ := by
  unfold write
  rw [if_neg (by simp [strInBytesTuple]), if_neg (by simp [h4]),
    if_neg (by rw [hup]; simp)]

theorem read_ok_eval (s : State) (ct id : List Nat) (c : Chunk)
    (payload : List Nat)
    (h4 : ct.length = 4) (hup : pyIsUpperByte (ct.headD 0) = false)
    (hlk : lookupKey s.customChunks ct = some c)
    (hid : id ≠ [])
    (hdata : c.data = (id ++ [0]) ++ payload) :
    read s ct id = .ok payload := by
  unfold read
  rw [if_neg (by simp [strInBytesTuple]), if_neg (by simp [h4]),
    if_neg (by rw [hup]; simp)]
  dsimp only
  rw [hlk]
  dsimp only
  have hne1 : ¬(id ++ [0] = [0]) := by
    intro hc
    have := congrArg List.length hc
    simp at this
    exact hid this
  have hne2 : c.data.take (id ++ [0]).length = id ++ [0] := by
    rw [hdata, List.take_left]
  rw [if_neg (by
    rintro (hc | hc)
    · exact hne1 hc
    · exact hc hne2)]
  rw [hdata, List.drop_left]

/-- Claim C2 (amended): starting from any well-formed `PNGImage` state, for
a valid custom chunk type (4 ASCII letters, lowercase first, not a standard
name), a non-empty identifier, and any payload whose chunk data
(`identifier + NUL + payload`) is below `2^32` bytes (the `u32` length
field packed on save), write–save–rescan–read returns the payload
unchanged.  Payloads at or above `2^32 - len(identifier) - 1` bytes make
`UInt32.pack` raise `OverflowError` inside `save`, so the round trip fails
for them (see the counterexample). -/
theorem C2_png_roundtrip (s : State) (ct id data : List Nat)
    (hwf : WFState s)
    (h4 : ct.length = 4)
    (hlower : 97 ≤ ct.headD 0 ∧ ct.headD 0 ≤ 122)
    (hascii : ∀ b ∈ ct, b < 128)
    (hns : ct ∉ PNG_CHUNKS)
    (hid : id ≠ [])
    (hsize : id.length + 1 + data.length < 4294967296) :
    ∃ s1 out s2,
      write s ct id data = .ok s1 ∧
      save s1 = .ok out ∧
      parse out = .ok s2 ∧
      read s2 ct id = .ok data := by
  have hup : pyIsUpperByte (ct.headD 0) = false := by
    unfold pyIsUpperByte
    simp only [decide_eq_false_iff_not]
    omega
  set newChunk : Chunk := ⟨((id ++ [0]) ++ data).length, ct,
    (id ++ [0]) ++ data, crc32 (ct ++ ((id ++ [0]) ++ data))⟩ with hnc
  set customs1 := setKey s.customChunks ct newChunk with hc1
  have hdlen : ((id ++ [0]) ++ data).length = id.length + 1 + data.length := by
    simp
    omega
  have hwfnew : WFChunk newChunk :=
    ⟨h4, rfl, by rw [hnc]; dsimp only; omega, crc32_lt _⟩
  have hF2 : ∀ kv ∈ customs1, kv.1 = kv.2.type ∧ WFChunk kv.2 ∧
      kv.2.type ∉ PNG_CHUNKS := by
    intro kv hkv
    rcases mem_setKey ct newChunk s.customChunks kv hkv with h | h
    · subst h
      exact ⟨rfl, hwfnew, hns⟩
    · exact hwf.2.1 kv h
  have hF3 : (customs1.map Prod.fst).Nodup :=
    nodup_keys_setKey ct newChunk s.customChunks hwf.2.2
  set s1 : State := ⟨s.chunks, customs1⟩ with hs1
  have hwrite : write s ct id data = .ok s1 := write_ok_eval s ct id data h4 hup
  -- properties of the emitted chunk sequence
  set sorted1 := pyStableSort (fun a b => bytesLt a.1 b.1) customs1 with hsor
  have hsortmem : ∀ kv ∈ sorted1, kv ∈ customs1 := by
    intro kv hkv
    exact (mem_pyStableSort _ _ kv).mp hkv
  have hemit : emittedChunks s1 =
      s.chunks.take 1 ++ (sorted1.map Prod.snd ++ s.chunks.drop 1) := by
    unfold emittedChunks
    rw [hs1]
    simp [List.append_assoc]
  have hwfe : ∀ c ∈ emittedChunks s1, WFChunk c := by
    intro c hc
    rw [hemit] at hc
    rcases List.mem_append.mp hc with h | h
    · exact (hwf.1 c (List.take_subset 1 s.chunks h)).1
    · rcases List.mem_append.mp h with h | h
      · obtain ⟨kv, hkv, he⟩ := List.mem_map.mp h
        rw [← he]
        exact (hF2 kv (hsortmem kv hkv)).2.1
      · exact (hwf.1 c (List.drop_subset 1 s.chunks h)).1
  have hsave : save s1 =
      .ok (HEADER ++ ((emittedChunks s1).map chunkOut).flatten) :=
    save_ok s1 (fun c hc => ⟨(hwfe c hc).2.2.1, (hwfe c hc).2.2.2⟩)
  have hparse : parse (HEADER ++ ((emittedChunks s1).map chunkOut).flatten) =
      .ok ⟨((emittedChunks s1).foldl pngClassify ([], [])).1,
        ((emittedChunks s1).foldl pngClassify ([], [])).2⟩ :=
    parse_serialized (emittedChunks s1) hwfe
  -- the classification of the emitted sequence
  have hclassify : (emittedChunks s1).foldl pngClassify ([], []) =
      (s.chunks.take 1 ++ s.chunks.drop 1,
        (sorted1.map Prod.snd).foldl (fun m c => setKey m c.type c) []) := by
    rw [hemit, List.foldl_append, List.foldl_append]
    rw [foldl_classify_std (s.chunks.take 1)
      (fun c hc => (hwf.1 c (List.take_subset 1 s.chunks hc)).2) [] []]
    rw [foldl_classify_custom (sorted1.map Prod.snd)
      (fun c hc => by
        obtain ⟨kv, hkv, he⟩ := List.mem_map.mp hc
        rw [← he]
        exact (hF2 kv (hsortmem kv hkv)).2.2)]
    rw [foldl_classify_std (s.chunks.drop 1)
      (fun c hc => (hwf.1 c (List.drop_subset 1 s.chunks hc)).2)]
    simp
  -- looking the written chunk back up
  have hmemnew : newChunk ∈ sorted1.map Prod.snd := by
    have h1 : lookupKey customs1 ct = some newChunk := lookupKey_setKey_self ct newChunk s.customChunks
    have h2 : (ct, newChunk) ∈ customs1 := lookupKey_mem ct newChunk customs1 h1
    have h3 : (ct, newChunk) ∈ sorted1 := (mem_pyStableSort _ _ _).mpr h2
    exact List.mem_map_of_mem Prod.snd h3
  have hndtypes : ((sorted1.map Prod.snd).map (fun c => c.type)).Nodup := by
    rw [List.map_map]
    have hcongr : sorted1.map (fun kv => kv.2.type) = sorted1.map Prod.fst := by
      refine List.map_congr_left ?_
      intro kv hkv
      exact ((hF2 kv (hsortmem kv hkv)).1).symm
    rw [show ((fun c => c.type) ∘ Prod.snd) = fun kv : List Nat × Chunk => kv.2.type from rfl]
    rw [hcongr]
    have hperm := (pyStableSort_perm (fun a b => bytesLt a.1 b.1) customs1).map Prod.fst
    exact hperm.nodup_iff.mpr hF3
  have hlook : lookupKey
      ((sorted1.map Prod.snd).foldl (fun m c => setKey m c.type c) []) ct =
        some newChunk :=
    lookup_foldl_setKey_found ct newChunk (sorted1.map Prod.snd) hmemnew rfl
      hndtypes []
  refine ⟨s1, HEADER ++ ((emittedChunks s1).map chunkOut).flatten,
    ⟨s.chunks.take 1 ++ s.chunks.drop 1,
      (sorted1.map Prod.snd).foldl (fun m c => setKey m c.type c) []⟩,
    hwrite, hsave, ?_, ?_⟩
  · rw [hparse, hclassify]
  · exact read_ok_eval _ ct id newChunk data h4 hup hlook hid rfl

theorem png_save_single_error (k : List Nat) (c : PNGImage.Chunk) (e : PyErr)
    (h : PNGImage.serializeChunk c = .error e) :
    PNGImage.save ⟨[], [(k, c)]⟩ = .error e := by
  unfold PNGImage.save
  dsimp only
  rw [pyStableSort_singleton]
  simp only [List.take_nil, List.drop_nil, List.map_cons, List.map_nil,
    List.nil_append, List.append_nil]
  rw [List.foldlM_cons, h]
  rfl

/-- The chunk `write("abcd", "i", b"\x00" * 2**32)` stores. -/
def c2BigChunk : PNGImage.Chunk :=
  ⟨((([105] ++ [0]) ++ List.replicate (4294967296 : Nat) 0)).length,
    [97, 98, 99, 100],
    ([105] ++ [0]) ++ List.replicate (4294967296 : Nat) 0,
    crc32 ([97, 98, 99, 100] ++
      (([105] ++ [0]) ++ List.replicate (4294967296 : Nat) 0))⟩

/-- Claim C2 counterexample: with chunk type `"abcd"`, identifier `"i"` and
a payload of `2^32` zero bytes, `write` succeeds and stores the chunk, but
`save` on the resulting state raises `OverflowError` packing the chunk
length `2 + 2^32` into the 4-byte big-endian length field, so
write–save–rescan–read cannot return the payload: the round trip does not
hold for every payload. -/
theorem C2_counterexample :
    PNGImage.write ⟨[], []⟩ [97, 98, 99, 100] [105]
        (List.replicate 4294967296 0) =
      .ok ⟨[], [([97, 98, 99, 100], c2BigChunk)]⟩ ∧
    PNGImage.save ⟨[], [([97, 98, 99, 100], c2BigChunk)]⟩ =
      .error .overflowError := by
  have hlen : ((([105] ++ [0]) ++ List.replicate (4294967296 : Nat) 0)).length
      = 4294967298 := by
    rw [List.length_append, List.length_replicate]
    norm_num
  have hser : PNGImage.serializeChunk c2BigChunk = .error .overflowError := by
    unfold PNGImage.serializeChunk c2BigChunk
    dsimp only
    rw [hlen]
    rw [show packU32 4294967298 =
        (Except.error PyErr.overflowError : Except PyErr (List Nat)) from by
      unfold packU32
      rw [if_neg (by norm_num)]]
    rfl
  constructor
  · rw [PNGImage.write_ok_eval ⟨[], []⟩ [97, 98, 99, 100] [105]
      (List.replicate 4294967296 0) rfl (by decide)]
    rfl
  · exact png_save_single_error [97, 98, 99, 100] c2BigChunk
      PyErr.overflowError hser

theorem C2_witness :
    ∃ s1 out s2,
      PNGImage.write ⟨[], []⟩ [97, 98, 99, 100] [105] [7] = .ok s1 ∧
      PNGImage.save s1 = .ok out ∧
      PNGImage.parse out = .ok s2 ∧
      PNGImage.read s2 [97, 98, 99, 100] [105] = .ok [7] :=
  C2_png_roundtrip ⟨[], []⟩ [97, 98, 99, 100] [105] [7]
    ⟨fun c hc => absurd hc (by simp), fun kv hkv => absurd hkv (by simp),
      by simp⟩
    rfl (by decide) (by decide) (by decide) (by decide) (by norm_num)
/-! ## Claim C1 -/

/-- The minimal JPEG of the round-trip scenario: SOI, one APP4 segment of
declared length 6 carrying four data bytes, EOI. -/
def minimalJPEG : List Nat := [255, 216, 255, 228, 0, 6, 1, 2, 3, 4, 255, 217]

/-- A marker pair that is not `0xFF APPn` is skipped by the stride-2 scan. -/
theorem cm_skip_pair (pos a b : Nat) (rest : List Nat)
    (h : ¬(a = 255 ∧ 224 ≤ b ∧ b ≤ 239)) :
    JPEGImage.collectMarkers pos (a :: b :: rest) =
      JPEGImage.collectMarkers (pos + 2) rest := by
  show (if a = 255 ∧ 224 ≤ b ∧ b ≤ 239 then [(b, pos)] else []) ++
      JPEGImage.collectMarkers (pos + 2) rest = _
  rw [if_neg h, List.nil_append]

/-- A `0xFF APPn` pair is recorded by the stride-2 scan. -/
theorem cm_take_pair (pos b : Nat) (rest : List Nat)
    (h1 : 224 ≤ b) (h2 : b ≤ 239) :
    JPEGImage.collectMarkers pos (255 :: b :: rest) =
      (b, pos) :: JPEGImage.collectMarkers (pos + 2) rest := by
  show (if (255 : Nat) = 255 ∧ 224 ≤ b ∧ b ≤ 239 then [(b, pos)] else []) ++
      JPEGImage.collectMarkers (pos + 2) rest = _
  rw [if_pos ⟨rfl, h1, h2⟩]
  rfl

/-- The scan walks through an even-length `0xFF`-free prefix without
recording anything. -/
theorem cm_noFF_even : ∀ (l : List Nat), (∀ x ∈ l, x ≠ 255) →
    l.length % 2 = 0 → ∀ (pos : Nat) (rest : List Nat),
    JPEGImage.collectMarkers pos (l ++ rest) =
      JPEGImage.collectMarkers (pos + l.length) rest
  | [], _, _, pos, rest => by simp
  | [_], _, hpar, _, _ => by simp at hpar
  | a :: b :: t, hff, hpar, pos, rest => by
    rw [List.cons_append, List.cons_append,
      cm_skip_pair pos a b (t ++ rest) (fun hc => hff a (by simp) hc.1),
      cm_noFF_even t (fun x hx => hff x (by simp [hx]))
        (by simp only [List.length_cons] at hpar ⊢; omega) (pos + 2) rest]
    congr 1
    simp only [List.length_cons]
    omega

/-- The scan walks through an odd-length `0xFF`-free prefix, consuming one
extra byte of what follows. -/
theorem cm_noFF_odd : ∀ (l : List Nat), (∀ x ∈ l, x ≠ 255) →
    l.length % 2 = 1 → ∀ (pos a : Nat) (rest : List Nat),
    JPEGImage.collectMarkers pos (l ++ a :: rest) =
      JPEGImage.collectMarkers (pos + l.length + 1) rest
  | [], _, hpar, _, _, _ => by simp at hpar
  | [x], hff, _, pos, a, rest => by
    rw [show ([x] ++ a :: rest) = x :: a :: rest from rfl,
      cm_skip_pair pos x a rest (fun hc => hff x (by simp) hc.1)]
    congr 1
  | x :: y :: t, hff, hpar, pos, a, rest => by
    rw [List.cons_append, List.cons_append,
      cm_skip_pair pos x y (t ++ a :: rest) (fun hc => hff x (by simp) hc.1),
      cm_noFF_odd t (fun z hz => hff z (by simp [hz]))
        (by simp only [List.length_cons] at hpar ⊢; omega) (pos + 2) a rest]
    congr 1
    simp only [List.length_cons]
    omega

/-- The on-disk bytes of one APPn block: `0xFF`, the marker byte, the body
(whose first two bytes are the big-endian length field). -/
def blockBytes (p : Nat × List Nat) : List Nat := 255 :: p.1 :: p.2

/-- Shape of an APPn block body that the `parse` scan and extraction handle
faithfully: an APPn marker byte, a length field matching the body, a
high length byte that is not `0xFF`, and a non-empty `0xFF`-free remainder
(so the resynchronisation stops exactly at the block end). -/
def FragShape (p : Nat × List Nat) : Prop :=
  224 ≤ p.1 ∧ p.1 ≤ 239 ∧
  ∃ hi lo r2, p.2 = hi :: lo :: r2 ∧ hi * 256 + lo = r2.length + 2 ∧
    hi ≠ 255 ∧ r2 ≠ [] ∧ ∀ x ∈ r2, x ≠ 255

/-- The `(marker byte, offset)` pairs of a list of consecutive blocks laid
out starting at `pos`. -/
def markerPositions : Nat → List (Nat × List Nat) → List (Nat × Nat)
  | _, [] => []
  | pos, p :: rest => (p.1, pos) :: markerPositions (pos + 2 + p.2.length) rest

/-- The stride-2 scan over consecutive well-shaped blocks followed by the
EOI marker records exactly one marker per block, provided every block but
the last has an even body (so the scan stays aligned). -/
theorem cm_blocks : ∀ (fs : List (Nat × List Nat)), (∀ p ∈ fs, FragShape p) →
    (∀ p ∈ fs.dropLast, p.2.length % 2 = 0) → ∀ (pos : Nat),
    JPEGImage.collectMarkers pos ((fs.map blockBytes).flatten ++ [255, 217]) =
      markerPositions pos fs
  | [], _, _, pos => by
    rw [List.map_nil, List.flatten_nil, List.nil_append,
      cm_skip_pair pos 255 217 [] (fun hc => by omega)]
    rfl
  | p :: rest, hsh, hev, pos => by
    obtain ⟨h224, h239, hi, lo, r2, hp2, hlen, hhi, hr2ne, hr2ff⟩ :=
      hsh p (by simp)
    have hp2len : p.2.length = r2.length + 2 := by rw [hp2]; simp
    have hstep : (((p :: rest).map blockBytes).flatten ++ [255, 217]) =
        255 :: p.1 :: hi :: lo ::
          (r2 ++ ((rest.map blockBytes).flatten ++ [255, 217])) := by
      rw [List.map_cons, List.flatten_cons]
      simp [blockBytes, hp2]
    rw [hstep, cm_take_pair pos p.1 _ h224 h239,
      cm_skip_pair (pos + 2) hi lo _ (fun hc => hhi hc.1)]
    show _ :: JPEGImage.collectMarkers (pos + 2 + 2) _ =
      (p.1, pos) :: markerPositions (pos + 2 + p.2.length) rest
    congr 1
    cases rest with
    | nil =>
      rw [List.map_nil, List.flatten_nil, List.nil_append]
      rcases Nat.even_or_odd r2.length with hpar | hpar

      · rw [show (r2 ++ [255, 217]) = r2 ++ ([255, 217] : List Nat) from rfl,
          cm_noFF_even r2 hr2ff (Nat.even_iff.mp hpar) (pos + 2 + 2) [255, 217],
          cm_skip_pair _ 255 217 [] (fun hc => by omega)]
        rfl
      · rw [show (r2 ++ [255, 217]) = r2 ++ 255 :: [217] from rfl,
          cm_noFF_odd r2 hr2ff (Nat.odd_iff.mp hpar) (pos + 2 + 2) 255 [217]]
        rfl
    | cons q rs =>
      have hr2even : r2.length % 2 = 0 := by
        have hpe := hev p (by
          show p ∈ (p :: (q :: rs)).dropLast
          exact List.mem_cons_self _ _)
        omega
      rw [cm_noFF_even r2 hr2ff hr2even (pos + 2 + 2)
        (((q :: rs).map blockBytes).flatten ++ [255, 217]),
        cm_blocks (q :: rs) (fun x hx => hsh x (by simp [hx]))
          (fun x hx => hev x (by
            show x ∈ (p :: (q :: rs)).dropLast
            exact List.mem_cons_of_mem p hx)) (pos + 2 + 2 + r2.length)]
      congr 1
      omega

/-- Folding `appendAt` over markers that all carry the same key extends that
key's singleton group. -/
theorem groupFold_same_key (sb : Nat) : ∀ (ms : List (Nat × Nat)) (l : List Nat),
    (∀ m ∈ ms, m.1 = sb) →
    ms.foldl (fun acc m => JPEGImage.appendAt acc m.1 m.2) [(sb, l)] =
      [(sb, l ++ ms.map Prod.snd)]
  | [], l, _ => by simp
  | m :: t, l, h => by
    rw [List.foldl_cons]
    have happ : JPEGImage.appendAt [(sb, l)] m.1 m.2 = [(sb, l ++ [m.2])] := by
      rw [h m (by simp)]
      simp [JPEGImage.appendAt]
    rw [happ, groupFold_same_key sb t (l ++ [m.2]) (fun x hx => h x (by simp [hx]))]
    simp

/-- `groupMarkers` on a non-empty marker list with a single key. -/
theorem groupMarkers_same_key (sb : Nat) (m0 : Nat × Nat) (ms : List (Nat × Nat))
    (h : ∀ m ∈ m0 :: ms, m.1 = sb) :
    JPEGImage.groupMarkers (m0 :: ms) = [(sb, (m0 :: ms).map Prod.snd)] := by
  unfold JPEGImage.groupMarkers
  rw [List.foldl_cons]
  have h0 : JPEGImage.appendAt [] m0.1 m0.2 = [(sb, [m0.2])] := by
    rw [h m0 (by simp)]
    rfl
  rw [h0, groupFold_same_key sb ms [m0.2] (fun x hx => h x (by simp [hx]))]
  simp

/-- Folding `appendAt` over same-key markers past an earlier group with a
different key leaves that group alone. -/
theorem groupFold_second_key (k1 sb : Nat) (l1 : List Nat) (hne : k1 ≠ sb) :
    ∀ (ms : List (Nat × Nat)) (l : List Nat), (∀ m ∈ ms, m.1 = sb) →
    ms.foldl (fun acc m => JPEGImage.appendAt acc m.1 m.2) [(k1, l1), (sb, l)] =
      [(k1, l1), (sb, l ++ ms.map Prod.snd)]
  | [], l, _ => by simp
  | m :: t, l, h => by
    rw [List.foldl_cons]
    have happ : JPEGImage.appendAt [(k1, l1), (sb, l)] m.1 m.2 =
        [(k1, l1), (sb, l ++ [m.2])] := by
      rw [h m (by simp)]
      simp [JPEGImage.appendAt, hne]
    rw [happ,
      groupFold_second_key k1 sb l1 hne t (l ++ [m.2]) (fun x hx => h x (by simp [hx]))]
    simp

/-- `groupMarkers` on a first marker with one key followed by markers that
all carry a second key. -/
theorem groupMarkers_two_keys (k1 sb p1 : Nat) (m0 : Nat × Nat) (ms : List (Nat × Nat))
    (hne : k1 ≠ sb) (h : ∀ m ∈ m0 :: ms, m.1 = sb) :
    JPEGImage.groupMarkers ((k1, p1) :: m0 :: ms) =
      [(k1, [p1]), (sb, (m0 :: ms).map Prod.snd)] := by
  unfold JPEGImage.groupMarkers
  rw [List.foldl_cons, List.foldl_cons]
  have h1 : JPEGImage.appendAt (JPEGImage.appendAt [] (k1, p1).1 (k1, p1).2) m0.1 m0.2 =
      [(k1, [p1]), (sb, [m0.2])] := by
    rw [h m0 (by simp)]
    simp [JPEGImage.appendAt, hne]
  rw [h1, groupFold_second_key k1 sb [p1] hne ms [m0.2] (fun x hx => h x (by simp [hx]))]
  simp

/-- The positions recorded for a chain of blocks all lie at or past the
chain's start. -/
theorem markerPositions_ge : ∀ (fs : List (Nat × List Nat)) (pos q : Nat),
    q ∈ (markerPositions pos fs).map Prod.snd → pos ≤ q
  | [], _, _, h => by simp [markerPositions] at h
  | p :: rest, pos, q, h => by
    simp only [markerPositions, List.map_cons, List.mem_cons] at h
    rcases h with h | h
    · omega
    · have := markerPositions_ge rest (pos + 2 + p.2.length) q h
      omega

/-- All recorded marker bytes of a chain of same-marker blocks. -/
theorem markerPositions_keys (k : Nat) : ∀ (fs : List (Nat × List Nat)) (pos : Nat),
    (∀ p ∈ fs, p.1 = k) → ∀ m ∈ markerPositions pos fs, m.1 = k
  | [], _, _, _, hm => by simp [markerPositions] at hm
  | p :: rest, pos, h, m, hm => by
    simp only [markerPositions, List.mem_cons] at hm
    rcases hm with hm | hm
    · rw [hm]
      exact h p (by simp)
    · exact markerPositions_keys k rest (pos + 2 + p.2.length)
        (fun x hx => h x (by simp [hx])) m hm

/-- Folding `Nat.min` over elements that are no smaller leaves the seed. -/
theorem foldl_min_of_le (a : Nat) : ∀ (t : List Nat), (∀ x ∈ t, a ≤ x) →
    t.foldl Nat.min a = a
  | [], _ => rfl
  | x :: r, h => by
    rw [List.foldl_cons, show Nat.min a x = a from by
      show min a x = a
      exact min_eq_left (h x (by simp))]
    exact foldl_min_of_le a r (fun y hy => h y (by simp [hy]))

/-- Python `min` of a list whose head is minimal. -/
theorem listMin_of_head_le (a : Nat) (t : List Nat) (h : ∀ x ∈ t, a ≤ x) :
    JPEGImage.listMin (a :: t) = .ok a := by
  show Except.ok (t.foldl Nat.min a) = .ok a
  rw [foldl_min_of_le a t h]

/-- Chain predicate: starting at `pos`, the buffer `b` holds the given
well-shaped blocks one after the other, followed by exactly the EOI
marker. -/
def BlocksAt (b : List Nat) : Nat → List (Nat × List Nat) → Prop
  | pos, [] => b.drop pos = [255, 217]
  | pos, p :: rest =>
      FragShape p ∧
      b.drop pos = blockBytes p ++ b.drop (pos + 2 + p.2.length) ∧
      BlocksAt b (pos + 2 + p.2.length) rest

/-- A chain position always starts with a `0xFF` byte (the next block's
marker prefix or the EOI marker). -/
theorem BlocksAt_next_head (b : List Nat) (pos : Nat) (fs : List (Nat × List Nat))
    (h : BlocksAt b pos fs) : ∃ t, b.drop pos = 255 :: t := by
  cases fs with
  | nil => exact ⟨[217], h⟩
  | cons p rest =>
    obtain ⟨_, hdrop, _⟩ := h
    exact ⟨p.1 :: (p.2 ++ b.drop (pos + 2 + p.2.length)), by rw [hdrop]; rfl⟩

/-- The end of a chain sits two bytes before the end of the buffer. -/
theorem blocksAt_end (b : List Nat) (pos : Nat) (h : b.drop pos = [255, 217]) :
    pos + 2 = b.length := by
  have hl := congrArg List.length h
  rw [List.length_drop] at hl
  simp at hl
  omega

/-- Building a chain from an explicit layout equation. -/
theorem blocksAt_build (b : List Nat) : ∀ (fs : List (Nat × List Nat)) (pos : Nat),
    (∀ p ∈ fs, FragShape p) →
    b.drop pos = (fs.map blockBytes).flatten ++ [255, 217] →
    BlocksAt b pos fs
  | [], pos, _, hdrop => by
    show b.drop pos = [255, 217]
    simpa using hdrop
  | p :: rest, pos, hsh, hdrop => by
    have hd2 : b.drop (pos + (blockBytes p).length) =
        (rest.map blockBytes).flatten ++ [255, 217] :=
      drop_cursor_append b pos (blockBytes p) _ (by
        rw [hdrop, List.map_cons, List.flatten_cons, List.append_assoc])
    have hlb : (blockBytes p).length = 2 + p.2.length := by
      simp only [blockBytes, List.length_cons]
      omega
    have hd3 : b.drop (pos + 2 + p.2.length) =
        (rest.map blockBytes).flatten ++ [255, 217] := by
      rw [show pos + 2 + p.2.length = pos + (blockBytes p).length from by
        rw [hlb]; omega]
      exact hd2
    refine ⟨hsh p (by simp), ?_, blocksAt_build b rest (pos + 2 + p.2.length)
      (fun q hq => hsh q (by simp [hq])) hd3⟩
    rw [hdrop, hd3, List.map_cons, List.flatten_cons, List.append_assoc]

/-- Full evaluation of `extractFrag` at the start of a well-shaped block:
the length field is read, the resynchronisation lands exactly on the `0xFF`
that follows the block, and the extracted fragment is the whole block
body. -/
theorem extractFrag_block (b : List Nat) (pos : Nat) (p : Nat × List Nat)
    (hsh : FragShape p)
    (hdrop : b.drop pos = blockBytes p ++ b.drop (pos + 2 + p.2.length))
    (hnext : ∃ t, b.drop (pos + 2 + p.2.length) = 255 :: t) :
    JPEGImage.extractFrag b pos = .ok ((none, p.2), pos + 2 + p.2.length) := by
  obtain ⟨h224, h239, hi, lo, r2, hp2, hlen, hhi, hr2ne, hr2ff⟩ := hsh
  obtain ⟨tnext, hn⟩ := hnext
  have hp2len : p.2.length = r2.length + 2 := by rw [hp2]; simp
  have hbb : blockBytes p = [255, p.1, hi, lo] ++ r2 := by
    simp [blockBytes, hp2]
  have hsplit : b.drop pos =
      [255, p.1] ++ ([hi, lo] ++ (r2 ++ b.drop (pos + 2 + p.2.length))) := by
    rw [hdrop, hbb]
    simp [List.append_assoc]
  have hd2 : b.drop (pos + 2) =
      [hi, lo] ++ (r2 ++ b.drop (pos + 2 + p.2.length)) :=
    drop_cursor_append b pos [255, p.1] _ hsplit
  have hslice16 : pySlice b (pos + 2) (pos + 4) = [hi, lo] := by
    rw [show pos + 4 = pos + 2 + 2 from by omega]
    exact take_of_drop_append b (pos + 2) [hi, lo] _ hd2
  have hr2last := List.dropLast_append_getLast hr2ne
  have hsplit2 : b.drop pos = ([255, p.1, hi, lo] ++ r2.dropLast) ++
      (r2.getLast hr2ne :: b.drop (pos + 2 + p.2.length)) := by
    rw [hdrop, hbb]
    conv_lhs => rw [← hr2last]
    simp [List.append_assoc]
  have hdlast : ([255, p.1, hi, lo] ++ r2.dropLast).length = r2.length + 3 := by
    rw [List.length_append, List.length_dropLast]
    have h1 : 1 ≤ r2.length := List.length_pos.mpr hr2ne
    simp only [List.length_cons, List.length_nil]
    omega
  have hdrop3 : b.drop (pos + r2.length + 3) =
      r2.getLast hr2ne :: (255 :: tnext) := by
    have hstep := drop_cursor_append b pos ([255, p.1, hi, lo] ++ r2.dropLast) _ hsplit2
    rw [hdlast, hn] at hstep
    rw [show pos + r2.length + 3 = pos + (r2.length + 3) from by omega]
    exact hstep
  have hcf : pos + r2.length + 3 < b.length := by
    have hl3 := congrArg List.length hdrop3
    rw [List.length_drop] at hl3
    simp only [List.length_cons] at hl3
    omega
  have hresync : JPEGImage.resync b (pos + r2.length + 3) = pos + 2 + p.2.length := by
    unfold JPEGImage.resync
    rw [if_pos hcf, hdrop3, List.findIdx?_cons]
    have hgl : (r2.getLast hr2ne == 255) = false := by
      simp only [beq_eq_false_iff_ne, ne_eq]
      exact hr2ff _ (List.getLast_mem hr2ne)
    rw [hgl]
    simp only [Bool.false_eq_true, if_false, List.findIdx?_cons, beq_self_eq_true,
      if_true]
    show pos + r2.length + 3 + (0 + 1) = pos + 2 + p.2.length
    omega
  have hfrag : pySlice b (pos + 2) (pos + 2 + p.2.length) = p.2 := by
    have hsplit3 : b.drop (pos + 2) = p.2 ++ b.drop (pos + 2 + p.2.length) := by
      rw [hd2, hp2]
      rfl
    have := take_of_drop_append b (pos + 2) p.2 _ hsplit3
    rw [show pos + 2 + p.2.length = pos + 2 + p.2.length from rfl]
    exact this
  unfold JPEGImage.extractFrag
  rw [hslice16]
  show (Except.ok (hi * 256 + lo) >>= fun segLen =>
    (Except.ok ((none, pySlice b (pos + 2) (JPEGImage.resync b (pos + segLen + 1))),
      JPEGImage.resync b (pos + segLen + 1)) : Except PyErr (JPEGImage.Frag × Nat))) = _
  rw [exceptBindOk]
  rw [hlen, show pos + (r2.length + 2) + 1 = pos + r2.length + 3 from by omega,
    hresync, hfrag]

/-- Evaluation of the per-group extraction fold of `parse` along a chain of
blocks: each recorded position yields its block body as a fragment, and the
final cursor is the EOI position (when at least one block was processed). -/
theorem innerFold (b : List Nat) (sb : Nat) :
    ∀ (fs : List (Nat × List Nat)) (pos : Nat)
      (segs : List (Nat × List JPEGImage.Frag)) (cur : Nat),
    BlocksAt b pos fs →
    ((markerPositions pos fs).map Prod.snd).foldlM
      (fun acc2 start => do
        let fc ← JPEGImage.extractFrag b start
        pure (JPEGImage.appendAt acc2.1 sb fc.1, fc.2)) (segs, cur) =
    .ok (fs.foldl (fun sg p =>
          JPEGImage.appendAt sg sb ((none : Option Nat), p.2)) segs,
        if fs = [] then cur else b.length - 2)
  | [], pos, segs, cur, _ => by
    simp only [markerPositions, List.map_nil, List.foldlM_nil, List.foldl_nil,
      if_pos rfl]
    rfl
  | p :: rest, pos, segs, cur, h => by
    obtain ⟨hsh, hdrop, hrest⟩ := h
    have hext := extractFrag_block b pos p hsh hdrop
      (BlocksAt_next_head b _ rest hrest)
    rw [show markerPositions pos (p :: rest) =
      (p.1, pos) :: markerPositions (pos + 2 + p.2.length) rest from rfl]
    simp only [List.map_cons, List.foldlM_cons, hext, exceptBindOk]
    show ((markerPositions (pos + 2 + p.2.length) rest).map Prod.snd).foldlM _
        (JPEGImage.appendAt segs sb ((none : Option Nat), p.2),
          pos + 2 + p.2.length) = _
    rw [innerFold b sb rest (pos + 2 + p.2.length)
      (JPEGImage.appendAt segs sb ((none : Option Nat), p.2))
      (pos + 2 + p.2.length) hrest]
    rw [List.foldl_cons]
    cases rest with
    | nil =>
      have hend : pos + 2 + p.2.length + 2 = b.length :=
        blocksAt_end b (pos + 2 + p.2.length) hrest
      rw [if_pos rfl, if_neg (by simp)]
      have : pos + 2 + p.2.length = b.length - 2 := by omega
      rw [this]
    | cons q rs =>
      rw [if_neg (by simp), if_neg (by simp)]

/-- Left fold of list append equals the flattened map. -/
theorem foldl_append_flatten (g : α → List β) : ∀ (l : List α) (acc : List β),
    l.foldl (fun a x => a ++ g x) acc = acc ++ (l.map g).flatten
  | [], acc => by simp
  | x :: t, acc => by
    rw [List.foldl_cons, foldl_append_flatten g t (acc ++ g x)]
    simp

/-- Appending to a key just set extends that key's list in place. -/
theorem appendAt_setKey [DecidableEq κ] (k : κ) (x : ν) :
    ∀ (m : List (κ × List ν)) (l : List ν),
    JPEGImage.appendAt (setKey m k l) k x = setKey m k (l ++ [x])
  | [], l => by simp [setKey, JPEGImage.appendAt]
  | (k0, v0) :: t, l => by
    by_cases hk : k0 = k
    · subst hk
      simp [setKey, JPEGImage.appendAt]
    · simp only [setKey, if_neg hk, JPEGImage.appendAt]
      rw [appendAt_setKey k x t l]

/-- Folding `appendAt` on one key over a table where that key was just set
collects the appended values at that key. -/
theorem foldl_appendAt_setKey [DecidableEq κ] (k : κ) (g : Nat → ν) :
    ∀ (is : List Nat) (m : List (κ × List ν)) (l : List ν),
    is.foldl (fun sg i => JPEGImage.appendAt sg k (g i)) (setKey m k l) =
      setKey m k (l ++ is.map g)
  | [], m, l => by simp
  | i :: t, m, l => by
    rw [List.foldl_cons, appendAt_setKey k (g i) m l,
      foldl_appendAt_setKey k g t m (l ++ [g i])]
    simp

/-- Folding `appendAt` on one key over a singleton table holding that key. -/
theorem foldl_appendAt_acc [DecidableEq κ] (k : κ) (g : α → ν) :
    ∀ (xs : List α) (pre : List ν),
    xs.foldl (fun sg x => JPEGImage.appendAt sg k (g x)) [(k, pre)] =
      [(k, pre ++ xs.map g)]
  | [], pre => by simp
  | x :: t, pre => by
    rw [List.foldl_cons,
      show JPEGImage.appendAt [(k, pre)] k (g x) = [(k, pre ++ [g x])] from by
        simp [JPEGImage.appendAt],
      foldl_appendAt_acc k g t (pre ++ [g x])]
    simp

/-- Folding `appendAt` on one key from the empty table builds that key's
group. -/
theorem foldl_appendAt_nil [DecidableEq κ] (k : κ) (g : α → ν) (x0 : α) (xs : List α) :
    (x0 :: xs).foldl (fun sg x => JPEGImage.appendAt sg k (g x)) [] =
      [(k, (x0 :: xs).map g)] := by
  rw [List.foldl_cons,
    show JPEGImage.appendAt ([] : List (κ × List ν)) k (g x0) = [(k, [g x0])] from rfl,
    foldl_appendAt_acc k g xs [g x0]]
  simp

/-- Folding `appendAt` on a fresh key past an existing single group appends
the new group after it. -/
theorem foldl_appendAt_acc2 [DecidableEq κ] (k1 k : κ) (hne : k1 ≠ k) (v1 : List ν)
    (g : α → ν) : ∀ (xs : List α) (pre : List ν),
    xs.foldl (fun sg x => JPEGImage.appendAt sg k (g x)) [(k1, v1), (k, pre)] =
      [(k1, v1), (k, pre ++ xs.map g)]
  | [], pre => by simp
  | x :: t, pre => by
    rw [List.foldl_cons,
      show JPEGImage.appendAt [(k1, v1), (k, pre)] k (g x) =
        [(k1, v1), (k, pre ++ [g x])] from by simp [JPEGImage.appendAt, hne],
      foldl_appendAt_acc2 k1 k hne v1 g t (pre ++ [g x])]
    simp

/-- Folding `appendAt` on a fresh key past an existing single group. -/
theorem foldl_appendAt_two [DecidableEq κ] (k1 k : κ) (hne : k1 ≠ k) (v1 : List ν)
    (g : α → ν) (x0 : α) (xs : List α) :
    (x0 :: xs).foldl (fun sg x => JPEGImage.appendAt sg k (g x)) [(k1, v1)] =
      [(k1, v1), (k, (x0 :: xs).map g)] := by
  rw [List.foldl_cons,
    show JPEGImage.appendAt [(k1, v1)] k (g x0) = [(k1, v1), (k, [g x0])] from by
      simp [JPEGImage.appendAt, hne],
    foldl_appendAt_acc2 k1 k hne v1 g xs [g x0]]
  simp

/-- `math.ceil` of a natural division, as computed by the source through
`pyCeilDiv`, equals the rounded-up natural quotient. -/
theorem pyCeilDiv_nat (n c : Nat) (hc : 0 < c) :
    JPEGImage.pyCeilDiv (n : Int) (c : Int) = (((n + c - 1) / c : Nat) : Int) := by
  unfold JPEGImage.pyCeilDiv
  rw [Int.fdiv_eq_ediv _ (by exact_mod_cast Nat.zero_le c)]
  rcases Nat.eq_zero_or_pos n with hn | hn
  · subst hn
    rw [Nat.div_eq_of_lt (by omega)]
    simp
  · have hqr : c * ((n - 1) / c) + (n - 1) % c = n - 1 := Nat.div_add_mod _ _
    have hrlt : (n - 1) % c < c := Nat.mod_lt _ hc
    have hn3 : n = c * ((n - 1) / c) + (n - 1) % c + 1 := by omega
    have hn2 : (n : Int) = (c : Int) * ((n - 1) / c : Nat) + ((n - 1) % c : Nat) + 1 := by
      exact_mod_cast hn3
    have hsplit : (-(n : Int)) = ((c : Int) - 1 - ((n - 1) % c : Nat)) +
        (-(((n - 1) / c : Nat) + 1)) * (c : Int) := by
      rw [hn2]
      push_cast
      ring
    have hediv : (-(n : Int)) / (c : Int) = -(((n - 1) / c : Nat) + 1) := by
      rw [hsplit, Int.add_mul_ediv_right _ _ (by exact_mod_cast Nat.pos_iff_ne_zero.mp hc : (c : Int) ≠ 0)]
      rw [Int.ediv_eq_zero_of_lt (by push_cast; omega) (by push_cast; omega)]
      ring
    rw [hediv]
    have hrhs : (n + c - 1) / c = (n - 1) / c + 1 := by
      rw [show n + c - 1 = (n - 1) + c from by omega, Nat.add_div_right _ hc]
    rw [hrhs]
    push_cast
    ring

/-- A chunk slice in drop/take normal form. -/
theorem pySlice_chunk (data : List Nat) (cs i : Nat) :
    pySlice data (i * cs) ((i + 1) * cs) = (data.drop (i * cs)).take cs := by
  unfold pySlice
  congr 1
  have h : (i + 1) * cs = i * cs + cs := by ring
  omega

/-- Concatenating the `total_chunks` chunk slices recovers the payload. -/
theorem chunk_concat (cs : Nat) (hcs : 0 < cs) :
    ∀ (k : Nat) (data : List Nat), (data.length + cs - 1) / cs = k →
    ((List.range k).map (fun i => pySlice data (i * cs) ((i + 1) * cs))).flatten = data
  | 0, data, hk => by
    have hlen : data.length = 0 := by
      by_contra hne
      have h1 : cs ≤ data.length + cs - 1 := by omega
      have := (Nat.one_le_div_iff hcs).mpr h1
      omega
    rw [List.length_eq_zero.mp hlen]
    simp
  | k + 1, data, hk => by
    rw [List.range_succ_eq_map, List.map_cons, List.flatten_cons, List.map_map]
    have hslice0 : pySlice data (0 * cs) ((0 + 1) * cs) = data.take cs := by
      rw [pySlice_chunk]
      simp
    have hcomp : ∀ i ∈ List.range k,
        ((fun i => pySlice data (i * cs) ((i + 1) * cs)) ∘ Nat.succ) i =
          pySlice (data.drop cs) (i * cs) ((i + 1) * cs) := by
      intro i _
      show pySlice data ((i + 1) * cs) ((i + 1 + 1) * cs) = _
      rw [pySlice_chunk, pySlice_chunk, List.drop_drop]
      congr 2
      ring
    rw [hslice0, List.map_congr_left hcomp]
    by_cases hle : data.length ≤ cs
    · have hk0 : k = 0 := by
        rcases Nat.eq_zero_or_pos data.length with h0 | h0
        · rw [h0] at hk
          rw [Nat.div_eq_of_lt (by omega)] at hk
          omega
        · have : (data.length + cs - 1) / cs = 1 := by
            rw [show data.length + cs - 1 = (data.length - 1) + cs from by omega,
              Nat.add_div_right _ hcs, Nat.div_eq_of_lt (by omega)]
          omega
      subst hk0
      simp only [List.range_zero, List.map_nil, List.flatten_nil, List.append_nil]
      exact List.take_of_length_le hle
    · have hdl : (data.drop cs).length = data.length - cs := List.length_drop _ _
      have hk2 : ((data.drop cs).length + cs - 1) / cs = k := by
        rw [hdl, show data.length - cs + cs - 1 = data.length - 1 from by omega]
        have hstep : (data.length + cs - 1) / cs = (data.length - 1) / cs + 1 := by
          rw [show data.length + cs - 1 = (data.length - 1) + cs from by omega,
            Nat.add_div_right _ hcs]
        omega
      rw [chunk_concat cs hcs k (data.drop cs) hk2]
      exact List.take_append_drop cs data

/-- Bind-through for `pure` in the `Except` monad. -/
theorem exceptPureBind (a : α) (f : α → Except ε β) :
    ((pure a : Except ε α) >>= f) = f a := rfl

/-- Big-endian 16-bit byte pair, the successful result of `UInt16.pack`. -/
def u16Bytes (n : Nat) : List Nat := [n / 256, n % 256]

/-- `chunk_size` computed by `JPEGImage.write` for an identifier:
`(65535 - 2000 - (len(identifier)+1+2)) - 1 = 63532 - (len(identifier)+1)`. -/
def chunkSizeOf (id : List Nat) : Nat := 63532 - (id.length + 1)

/-- `total_chunks = ceil(len(data) / chunk_size)`. -/
def totalChunksOf (id data : List Nat) : Nat :=
  (data.length + chunkSizeOf id - 1) / chunkSizeOf id

/-- The `i`-th chunk slice of the payload. -/
def sliceOf (id data : List Nat) (i : Nat) : List Nat :=
  pySlice data (i * chunkSizeOf id) ((i + 1) * chunkSizeOf id)

/-- The bytes of the `i`-th fragment built by a multi-chunk `write`:
length field, NUL-terminated identifier, `total_chunks` and `chunk_index`
bytes, then the chunk slice. -/
def wFragBytes (id data : List Nat) (i : Nat) : List Nat :=
  u16Bytes ((sliceOf id data i).length + (id ++ [0]).length + 4) ++
    ((id ++ [0]) ++ ([totalChunksOf id data, i] ++ sliceOf id data i))

theorem sliceOf_length (id data : List Nat) (i : Nat) :
    (sliceOf id data i).length =
      min (chunkSizeOf id) (data.length - i * chunkSizeOf id) := by
  unfold sliceOf
  rw [pySlice_chunk, List.length_take, List.length_drop]

theorem totalChunks_pos (id data : List Nat) (hcs : 0 < chunkSizeOf id)
    (hd1 : 1 ≤ data.length) : 1 ≤ totalChunksOf id data := by
  unfold totalChunksOf
  rw [Nat.one_le_div_iff hcs]
  omega

theorem totalChunks_le (id data : List Nat) (hcs : 0 < chunkSizeOf id)
    (hd2 : data.length ≤ 254 * chunkSizeOf id) : totalChunksOf id data ≤ 254 := by
  by_contra hgt
  push_neg at hgt
  have h1 : 255 ≤ (data.length + chunkSizeOf id - 1) / chunkSizeOf id := hgt
  have h2 := (Nat.le_div_iff_mul_le hcs).mp h1
  omega

/-- All but the notional last chunk start strictly inside the payload. -/
theorem totalChunks_mul_le (id data : List Nat) (hcs : 0 < chunkSizeOf id)
    (hd1 : 1 ≤ data.length) :
    (totalChunksOf id data - 1) * chunkSizeOf id ≤ data.length - 1 := by
  unfold totalChunksOf
  rw [show data.length + chunkSizeOf id - 1 = (data.length - 1) + chunkSizeOf id from
      by omega,
    Nat.add_div_right _ hcs]
  simp only [Nat.add_sub_cancel]
  exact Nat.div_mul_le_self _ _

theorem sliceOf_len_pos (id data : List Nat) (i : Nat) (hcs : 0 < chunkSizeOf id)
    (hd1 : 1 ≤ data.length) (hi : i < totalChunksOf id data) :
    1 ≤ (sliceOf id data i).length := by
  rw [sliceOf_length]
  have h1 : i * chunkSizeOf id ≤ (totalChunksOf id data - 1) * chunkSizeOf id :=
    Nat.mul_le_mul_right _ (by omega)
  have h2 := totalChunks_mul_le id data hcs hd1
  omega

theorem sliceOf_len_le (id data : List Nat) (i : Nat) :
    (sliceOf id data i).length ≤ chunkSizeOf id := by
  rw [sliceOf_length]
  omega

/-- Every chunk but the last is a full `chunk_size` slice. -/
theorem sliceOf_len_full (id data : List Nat) (i : Nat) (hcs : 0 < chunkSizeOf id)
    (hd1 : 1 ≤ data.length) (hi : i + 1 < totalChunksOf id data) :
    (sliceOf id data i).length = chunkSizeOf id := by
  rw [sliceOf_length]
  have h1 : (i + 1) * chunkSizeOf id ≤ (totalChunksOf id data - 1) * chunkSizeOf id :=
    Nat.mul_le_mul_right _ (by omega)
  have h2 := totalChunks_mul_le id data hcs hd1
  have h3 : (i + 1) * chunkSizeOf id = i * chunkSizeOf id + chunkSizeOf id := by ring
  omega

/-- Full evaluation of one fragment build in the multi-chunk `write`. -/
theorem buildFrag_ok (id data : List Nat) (tc i : Nat)
    (hinner : (sliceOf id data i).length + (id ++ [0]).length + 4 < 65536)
    (htc : tc < 256) (hi : i < 256) :
    JPEGImage.buildFrag true (id ++ [0]) data (chunkSizeOf id) tc i = .ok
      (u16Bytes ((sliceOf id data i).length + (id ++ [0]).length + 4) ++
        ((id ++ [0]) ++ ([tc, i] ++ sliceOf id data i))) := by
  have he : (sliceOf id data i).length + (id ++ [0]).length + 2 + 2 =
      (sliceOf id data i).length + (id ++ [0]).length + 4 := by omega
  have hpack : packU16 ((sliceOf id data i).length + (id ++ [0]).length + 4) =
      .ok (u16Bytes ((sliceOf id data i).length + (id ++ [0]).length + 4)) := by
    unfold packU16 u16Bytes
    rw [if_pos hinner]
  have htcp : packU8 tc = .ok [tc] := by unfold packU8; rw [if_pos htc]
  have hip : packU8 i = .ok [i] := by unfold packU8; rw [if_pos hi]
  unfold JPEGImage.buildFrag
  simp only [eq_self_iff_true, if_true]
  rw [show pySlice data (i * chunkSizeOf id) ((i + 1) * chunkSizeOf id) =
    sliceOf id data i from rfl]
  rw [he, hpack]
  simp only [exceptBindOk]
  rw [htcp]
  simp only [exceptBindOk]
  rw [hip]
  simp only [exceptBindOk, exceptPureBind]
  simp [List.append_assoc]

/-- Full evaluation of the fragment loop when every build succeeds. -/
theorem writeLoop_ok (seg : Nat) (ident data : List Nat) (cs tc : Nat)
    (g : Nat → List Nat) : ∀ (l : List Nat) (st : JPEGImage.State),
    (∀ i ∈ l, JPEGImage.buildFrag true ident data cs tc i = .ok (g i)) →
    JPEGImage.writeLoop true seg ident data cs tc l st = .ok
      ⟨st.imageBytes,
        l.foldl (fun sg i => JPEGImage.appendAt sg seg ((some i : Option Nat), g i))
          st.segments,
        st.appSegStart, st.appSegEnd⟩
  | [], st, _ => by
    simp only [JPEGImage.writeLoop, List.foldl_nil]
  | i :: rest, st, h => by
    simp only [JPEGImage.writeLoop, h i (by simp)]
    rw [writeLoop_ok seg ident data cs tc g rest _ (fun j hj => h j (by simp [hj]))]
    simp only [List.foldl_cons, if_true]

/-- Full evaluation of a successful multi-chunk `write`: the target
segment's fragment list is replaced by the indexed fragments built from the
payload.  The payload is non-empty (so at least one fragment is built) and
at most `254 * chunk_size` bytes (so at most 254 fragments are needed and
every one-byte field fits). -/
theorem write_multi_ok (s : JPEGImage.State) (seg : Nat) (id data : List Nat)
    (hfree : seg ∈ JPEGImage.FREE_SEGMENTS)
    (hd1 : 1 ≤ data.length)
    (hd2 : data.length ≤ 254 * chunkSizeOf id) :
    JPEGImage.write true s seg id data = .ok
      ⟨s.imageBytes,
        setKey s.segments (224 + seg)
          ((List.range (totalChunksOf id data)).map
            (fun i => ((some i : Option Nat), wFragBytes id data i))),
        s.appSegStart, s.appSegEnd⟩ := by
  have hcs : 0 < chunkSizeOf id := by
    by_contra h0
    push_neg at h0
    omega
  have hfree2 : seg = 4 ∨ seg = 5 ∨ seg = 6 ∨ seg = 7 ∨ seg = 8 ∨ seg = 9 ∨
      seg = 10 ∨ seg = 11 ∨ seg = 15 := by
    simpa [JPEGImage.FREE_SEGMENTS] using hfree
  have hseg15 : ¬ 15 < seg := by omega
  have htc1 := totalChunks_pos id data hcs hd1
  have htc254 := totalChunks_le id data hcs hd2
  have hidlen : id.length + 1 ≤ 63531 := by
    unfold chunkSizeOf at hcs
    omega
  have hcsI : (63535 : Int) - (((id ++ [0]).length : Int) + 2) - 1 =
      (chunkSizeOf id : Int) := by
    have hl : (id ++ [0]).length = id.length + 1 := by simp
    rw [hl]
    unfold chunkSizeOf
    omega
  have hbuild : ∀ i ∈ List.range (totalChunksOf id data),
      JPEGImage.buildFrag true (id ++ [0]) data (chunkSizeOf id)
        (totalChunksOf id data) i = .ok (wFragBytes id data i) := by
    intro i hi
    rw [List.mem_range] at hi
    refine buildFrag_ok id data (totalChunksOf id data) i ?_ (by omega) (by omega)
    have h1 := sliceOf_len_le id data i
    have h2 : (id ++ [0]).length = id.length + 1 := by simp
    unfold chunkSizeOf at h1
    omega
  simp only [JPEGImage.write]
  rw [if_neg hseg15, if_neg (show ¬ seg ∉ JPEGImage.FREE_SEGMENTS from
    fun hn => hn hfree)]
  rw [hcsI, if_neg (show ¬((chunkSizeOf id : Int) = 0) from by
    exact_mod_cast Nat.pos_iff_ne_zero.mp hcs)]
  rw [pyCeilDiv_nat data.length (chunkSizeOf id) hcs,
    show ((data.length + chunkSizeOf id - 1) / chunkSizeOf id : Nat) =
      totalChunksOf id data from rfl]
  rw [if_neg (show ¬(256 * (chunkSizeOf id : Int) < (data.length : Int)) from by
    omega)]
  simp only [Int.toNat_natCast]
  rw [writeLoop_ok (224 + seg) (id ++ [0]) data (chunkSizeOf id)
    (totalChunksOf id data) (wFragBytes id data)
    (List.range (totalChunksOf id data)) _ hbuild]
  have hfold := foldl_appendAt_setKey (224 + seg)
    (fun i => ((some i : Option Nat), wFragBytes id data i))
    (List.range (totalChunksOf id data)) s.segments []
  simp only [List.nil_append] at hfold
  simp only [hfold]

/-- Bind with `pure` on the right in the `Except` monad. -/
theorem exceptBindPure (x : Except ε α) : (x >>= pure) = x := by
  cases x <;> rfl

/-- Fragments tagged with ascending indices are already sorted by index. -/
theorem pairwise_range_map_key (g : Nat → List Nat) (tc : Nat) :
    ((List.range tc).map (fun i => ((some i : Option Nat), g i))).Pairwise
      (fun a b => JPEGImage.fragIndexKey a ≤ JPEGImage.fragIndexKey b) := by
  rw [List.pairwise_map]
  exact (List.pairwise_lt_range tc).imp (fun hab => le_of_lt hab)

/-- Sorting index-ascending fragments by index is the identity. -/
theorem pySortFragsByIndex_range_map (g : Nat → List Nat) (tc : Nat) :
    JPEGImage.pySortFragsByIndex
      ((List.range tc).map (fun i => ((some i : Option Nat), g i))) =
      .ok ((List.range tc).map (fun i => ((some i : Option Nat), g i))) := by
  rw [pySortFragsByIndex_all_some _ (by
    intro f hf
    simp only [List.mem_map] at hf
    obtain ⟨i, _, he⟩ := hf
    rw [← he]
    rfl)]
  rw [pyStableSort_eq_self JPEGImage.fragIndexKey _ (pairwise_range_map_key g tc)]

/-- The `assembled_segments` fold when every per-segment sort succeeds
without reordering. -/
theorem assembleFold_ok : ∀ (l : List (Nat × List JPEGImage.Frag)) (acc : List Nat),
    (∀ kv ∈ l, JPEGImage.pySortFragsByIndex kv.2 = .ok kv.2) →
    l.foldlM (fun (acc : List Nat) (kv : Nat × List JPEGImage.Frag) => do
      let sortedFrags ← JPEGImage.pySortFragsByIndex kv.2
      pure (acc ++ sortedFrags.foldl
        (fun (a : List Nat) (f : JPEGImage.Frag) => a ++ 255 :: kv.1 :: f.2) [])) acc =
    .ok (acc ++
      (l.map (fun kv => (kv.2.map (fun f => 255 :: kv.1 :: f.2)).flatten)).flatten)
  | [], acc, _ => by
    simp only [List.foldlM_nil, List.map_nil, List.flatten_nil, List.append_nil]
    rfl
  | kv :: t, acc, h => by
    simp only [List.foldlM_cons]
    rw [h kv (by simp)]
    simp only [exceptBindOk, exceptPureBind]
    rw [foldl_append_flatten (fun (f : JPEGImage.Frag) => 255 :: kv.1 :: f.2) kv.2 []]
    rw [assembleFold_ok t _ (fun x hx => h x (by simp [hx]))]
    simp [List.append_assoc]

/-- `assembleSegments` on an already key-sorted table whose per-segment
sorts all succeed without reordering. -/
theorem assembleSegments_sorted_ok (segs : List (Nat × List JPEGImage.Frag))
    (hsorted : segs.Pairwise (fun a b => a.1 ≤ b.1))
    (hfr : ∀ kv ∈ segs, JPEGImage.pySortFragsByIndex kv.2 = .ok kv.2) :
    JPEGImage.assembleSegments segs = .ok
      ((segs.map (fun kv => (kv.2.map (fun f => 255 :: kv.1 :: f.2)).flatten)).flatten) := by
  unfold JPEGImage.assembleSegments
  rw [pyStableSort_eq_self Prod.fst segs hsorted]
  have h := assembleFold_ok segs [] hfr
  simpa using h

/-- Multi-fragment `read` on any table holding the requested segment, when
every stored fragment passes the identifier and header checks. -/
theorem read_multi_ok_table (s : JPEGImage.State) (seg : Nat) (id : List Nat)
    (l : List JPEGImage.Frag)
    (hlk : lookupKey s.segments (224 + seg) = some l)
    (hv : ∀ f ∈ l, (f.2.drop 2).take (id ++ [0]).length = id ++ [0] ∧
      2 + (id ++ [0]).length + 2 ≤ f.2.length) :
    JPEGImage.read true s seg id =
      .ok (some ((pyStableSort (natKeyLt JPEGImage.fragIndexKey)
          (l.map (fun f => (some (fragStoredIdx (id ++ [0]) f), f.2)))).foldl
          (fun acc f => acc ++ f.2.drop (2 + (id ++ [0]).length + 2)) []),
        ⟨s.imageBytes, setKey s.segments (224 + seg)
          (l.map (fun f => (some (fragStoredIdx (id ++ [0]) f), f.2))),
          s.appSegStart, s.appSegEnd⟩) := by
  unfold JPEGImage.read
  have hk : hasKey s.segments (224 + seg) = true := by
    simp [hasKey, hlk]
  have hsorted := pySortFragsByIndex_all_some
      (l.map (fun f => (some (fragStoredIdx (id ++ [0]) f), f.2)))
      (by
        intro f hf
        simp only [List.mem_map] at hf
        obtain ⟨g, _, he⟩ := hf
        rw [← he]
        rfl)
  simp only [hk, not_true_eq_false, if_false, hlk, Option.getD_some,
    Bool.not_eq_true, Bool.true_eq_false, retagFrags_eq_map (id ++ [0]) l hv,
    hsorted]

/-- The two header bytes followed by the rest of a built fragment. -/
theorem wFrag_split (id data : List Nat) (i : Nat) :
    wFragBytes id data i =
      u16Bytes ((sliceOf id data i).length + (id ++ [0]).length + 4) ++
        ((id ++ [0]) ++ ([totalChunksOf id data, i] ++ sliceOf id data i)) := rfl

/-- A built fragment in cons normal form. -/
theorem wFrag_cons (id data : List Nat) (i : Nat) :
    wFragBytes id data i =
      ((sliceOf id data i).length + (id ++ [0]).length + 4) / 256 ::
      (((sliceOf id data i).length + (id ++ [0]).length + 4) % 256 ::
        ((id ++ [0]) ++ ([totalChunksOf id data, i] ++ sliceOf id data i))) := rfl

theorem wFragBytes_length (id data : List Nat) (i : Nat) :
    (wFragBytes id data i).length =
      2 + (id ++ [0]).length + 2 + (sliceOf id data i).length := by
  unfold wFragBytes u16Bytes
  simp only [List.length_append, List.length_cons, List.length_nil]
  omega

/-- Every fragment built by `write` has the well-formed block shape the
`parse` scan relies on. -/
theorem wFrag_shape (seg : Nat) (id data : List Nat) (i : Nat)
    (hseg : seg ≤ 15)
    (hid : ∀ x ∈ id, x ≠ 255) (hdata : ∀ x ∈ data, x ≠ 255)
    (hcs : 0 < chunkSizeOf id)
    (htc254 : totalChunksOf id data ≤ 254)
    (hi : i < totalChunksOf id data)
    (hslen : 1 ≤ (sliceOf id data i).length) :
    FragShape (224 + seg, wFragBytes id data i) := by
  have hidl : (id ++ [0]).length = id.length + 1 := by simp
  have hslice_le := sliceOf_len_le id data i
  have hnle : (sliceOf id data i).length + (id ++ [0]).length + 4 ≤ 63536 := by
    unfold chunkSizeOf at hslice_le
    omega
  have hr2len : ((id ++ [0]) ++
      ([totalChunksOf id data, i] ++ sliceOf id data i)).length =
      (id ++ [0]).length + 2 + (sliceOf id data i).length := by
    simp only [List.length_append, List.length_cons, List.length_nil]
    omega
  have hfield : ((sliceOf id data i).length + (id ++ [0]).length + 4) / 256 * 256 +
      ((sliceOf id data i).length + (id ++ [0]).length + 4) % 256 =
      ((id ++ [0]) ++ ([totalChunksOf id data, i] ++ sliceOf id data i)).length + 2 := by
    rw [hr2len]
    omega
  have hhi : ((sliceOf id data i).length + (id ++ [0]).length + 4) / 256 ≠ 255 := by
    have h248 : ((sliceOf id data i).length + (id ++ [0]).length + 4) / 256 ≤ 248 := by
      omega
    omega
  have hne : ((id ++ [0]) ++ ([totalChunksOf id data, i] ++ sliceOf id data i)) ≠ [] := by
    simp
  have hff : ∀ x ∈ (id ++ [0]) ++ ([totalChunksOf id data, i] ++ sliceOf id data i),
      x ≠ 255 := by
    intro x hx
    rcases List.mem_append.mp hx with hx1 | hx2
    · rcases List.mem_append.mp hx1 with hx3 | hx4
      · exact hid x hx3
      · simp only [List.mem_singleton] at hx4
        omega
    · rcases List.mem_append.mp hx2 with hx5 | hx6
      · simp only [List.mem_cons, List.not_mem_nil, or_false] at hx5
        rcases hx5 with h | h <;> omega
      · have hxd : x ∈ data := by
          unfold sliceOf at hx6
          rw [pySlice_chunk] at hx6
          exact List.mem_of_mem_drop (List.mem_of_mem_take hx6)
        exact hdata x hxd
  exact ⟨by omega, by omega, _, _, _, wFrag_cons id data i, hfield, hhi, hne, hff⟩

/-- Fragments built by `write` pass the multi-fragment `read` checks. -/
theorem wFrag_read_valid (id data : List Nat) (i : Nat) :
    ((wFragBytes id data i).drop 2).take (id ++ [0]).length = id ++ [0] ∧
      2 + (id ++ [0]).length + 2 ≤ (wFragBytes id data i).length := by
  constructor
  · have h2 : (u16Bytes ((sliceOf id data i).length +
        (id ++ [0]).length + 4)).length = 2 := rfl
    rw [wFrag_split id data i, List.drop_left' h2]
    exact List.take_left _ _
  · rw [wFragBytes_length]
    omega

theorem wFrag_storedIdx (id data : List Nat) (i : Nat) :
    fragStoredIdx (id ++ [0]) ((none : Option Nat), wFragBytes id data i) = i := by
  have hsplit2 : wFragBytes id data i =
      (u16Bytes ((sliceOf id data i).length + (id ++ [0]).length + 4) ++ (id ++ [0])) ++
        ([totalChunksOf id data, i] ++ sliceOf id data i) := rfl
  have hplen : (u16Bytes ((sliceOf id data i).length + (id ++ [0]).length + 4) ++
      (id ++ [0])).length = 2 + (id ++ [0]).length := by
    simp only [List.length_append, u16Bytes, List.length_cons, List.length_nil]
  have hd : (wFragBytes id data i).drop (2 + (id ++ [0]).length) =
      [totalChunksOf id data, i] ++ sliceOf id data i := by
    rw [hsplit2]
    exact List.drop_left' hplen
  have harg : 2 + (id ++ [0]).length + 2 - (2 + (id ++ [0]).length) = 2 := by omega
  unfold fragStoredIdx pySlice
  show (List.take (2 + (id ++ [0]).length + 2 - (2 + (id ++ [0]).length))
      (List.drop (2 + (id ++ [0]).length) (wFragBytes id data i))).getD 1 0 = i
  rw [harg, hd]
  rfl

/-- Dropping the header of a fragment built by `write` leaves its chunk
slice. -/
theorem wFrag_payload_drop (id data : List Nat) (i : Nat) :
    (wFragBytes id data i).drop (2 + (id ++ [0]).length + 2) = sliceOf id data i := by
  have hsplit3 : wFragBytes id data i =
      ((u16Bytes ((sliceOf id data i).length + (id ++ [0]).length + 4) ++ (id ++ [0])) ++
        [totalChunksOf id data, i]) ++ sliceOf id data i := by
    rw [wFrag_split id data i]
    simp [List.append_assoc]
  have hplen3 : ((u16Bytes ((sliceOf id data i).length + (id ++ [0]).length + 4) ++
      (id ++ [0])) ++ [totalChunksOf id data, i]).length =
      2 + (id ++ [0]).length + 2 := by
    simp only [List.length_append, List.length_cons, List.length_nil, u16Bytes]
  rw [hsplit3]
  exact List.drop_left' hplen3

/-- The blocks written to disk for one segment: marker byte paired with
each built fragment. -/
def wBlocks (k : Nat) (id data : List Nat) : List (Nat × List Nat) :=
  (List.range (totalChunksOf id data)).map (fun i => (k, wFragBytes id data i))

theorem markerPositions_cons (pos : Nat) (p : Nat × List Nat)
    (rest : List (Nat × List Nat)) :
    markerPositions pos (p :: rest) =
      (p.1, pos) :: markerPositions (pos + 2 + p.2.length) rest := rfl

theorem wBlocks_cons (k : Nat) (id data : List Nat) (m : Nat)
    (hm : totalChunksOf id data = m + 1) :
    wBlocks k id data = (k, wFragBytes id data 0) ::
      (List.range m).map (fun j => (k, wFragBytes id data (j + 1))) := by
  unfold wBlocks
  rw [hm, List.range_succ_eq_map, List.map_cons, List.map_map]
  rfl

theorem wBlocks_shapes (k seg : Nat) (id data : List Nat) (hk : k = 224 + seg)
    (hseg : seg ≤ 15)
    (hid : ∀ x ∈ id, x ≠ 255) (hdata : ∀ x ∈ data, x ≠ 255)
    (hcs : 0 < chunkSizeOf id) (hd1 : 1 ≤ data.length)
    (htc254 : totalChunksOf id data ≤ 254) :
    ∀ p ∈ wBlocks k id data, FragShape p := by
  intro p hp
  unfold wBlocks at hp
  simp only [List.mem_map, List.mem_range] at hp
  obtain ⟨i, hi, he⟩ := hp
  rw [← he, hk]
  exact wFrag_shape seg id data i hseg hid hdata hcs htc254 hi
    (sliceOf_len_pos id data i hcs hd1 hi)

theorem wBlocks_even (k : Nat) (id data : List Nat)
    (hcs : 0 < chunkSizeOf id) (hd1 : 1 ≤ data.length) (m : Nat)
    (hm : totalChunksOf id data = m + 1) :
    ∀ p ∈ (wBlocks k id data).dropLast, p.2.length % 2 = 0 := by
  intro p hp
  unfold wBlocks at hp
  rw [hm, List.range_succ, List.map_append] at hp
  simp only [List.map_cons, List.map_nil] at hp
  rw [List.dropLast_concat] at hp
  simp only [List.mem_map, List.mem_range] at hp
  obtain ⟨i, hi, he⟩ := hp
  rw [← he]
  show (wFragBytes id data i).length % 2 = 0
  have hfull := sliceOf_len_full id data i hcs hd1 (by omega)
  rw [wFragBytes_length, hfull]
  have hidl : (id ++ [0]).length = id.length + 1 := by simp
  unfold chunkSizeOf at hcs ⊢
  omega

theorem wBlocks_keys (k : Nat) (id data : List Nat) :
    ∀ p ∈ wBlocks k id data, p.1 = k := by
  intro p hp
  unfold wBlocks at hp
  simp only [List.mem_map, List.mem_range] at hp
  obtain ⟨i, _, he⟩ := hp
  rw [← he]

/-- The written fragments retag to themselves under `read`. -/
theorem parsed_retag (id data : List Nat) :
    ((List.range (totalChunksOf id data)).map
        (fun i => ((none : Option Nat), wFragBytes id data i))).map
      (fun f => (some (fragStoredIdx (id ++ [0]) f), f.2)) =
    (List.range (totalChunksOf id data)).map
      (fun i => ((some i : Option Nat), wFragBytes id data i)) := by
  rw [List.map_map]
  refine List.map_congr_left ?_
  intro i _
  show (some (fragStoredIdx (id ++ [0]) ((none : Option Nat), wFragBytes id data i)),
    wFragBytes id data i) = (some i, wFragBytes id data i)
  rw [wFrag_storedIdx]

/-- Reassembling the sorted written fragments yields the payload. -/
theorem parsed_concat (id data : List Nat) (hd1 : 1 ≤ data.length)
    (hd2 : data.length ≤ 254 * chunkSizeOf id) :
    ((List.range (totalChunksOf id data)).map
        (fun i => ((some i : Option Nat), wFragBytes id data i))).foldl
      (fun acc f => acc ++ f.2.drop (2 + (id ++ [0]).length + 2)) [] = data := by
  have hcs : 0 < chunkSizeOf id := by
    by_contra h0
    push_neg at h0
    omega
  have hfold := foldl_append_flatten
    (fun (f : JPEGImage.Frag) => f.2.drop (2 + (id ++ [0]).length + 2))
    ((List.range (totalChunksOf id data)).map
      (fun i => ((some i : Option Nat), wFragBytes id data i))) []
  simp only [List.nil_append] at hfold
  rw [hfold, List.map_map]
  have hmc : ∀ i ∈ List.range (totalChunksOf id data),
      ((fun (f : JPEGImage.Frag) => f.2.drop (2 + (id ++ [0]).length + 2)) ∘
        (fun i => ((some i : Option Nat), wFragBytes id data i))) i =
      pySlice data (i * chunkSizeOf id) ((i + 1) * chunkSizeOf id) := by
    intro i _
    have hpd := wFrag_payload_drop id data i
    simp only [Function.comp_apply, hpd, sliceOf]
  rw [List.map_congr_left hmc]
  exact chunk_concat (chunkSizeOf id) hcs (totalChunksOf id data) data rfl

set_option maxRecDepth 4000 in
/-- Round trip through the minimal JPEG on segment 4 (the segment of the
existing APP4 block, which `write` replaces). -/
theorem jpeg_roundtrip_caseA (id data : List Nat)
    (hid : ∀ x ∈ id, x ≠ 255) (hdata : ∀ x ∈ data, x ≠ 255)
    (hd1 : 1 ≤ data.length) (hd2 : data.length ≤ 254 * chunkSizeOf id) :
    ∃ s0 s1 out s2,
      JPEGImage.parse minimalJPEG = .ok s0 ∧
      JPEGImage.write true s0 4 id data = .ok s1 ∧
      JPEGImage.save s1 = .ok out ∧
      JPEGImage.parse out = .ok s2 ∧
      (JPEGImage.read true s2 4 id).map Prod.fst = .ok (some data) := by
  have hcs : 0 < chunkSizeOf id := by
    by_contra h0
    push_neg at h0
    omega
  have htc1 := totalChunks_pos id data hcs hd1
  have htc254 := totalChunks_le id data hcs hd2
  obtain ⟨m, hm⟩ : ∃ m, totalChunksOf id data = m + 1 :=
    ⟨totalChunksOf id data - 1, by omega⟩
  have hparse1 : JPEGImage.parse minimalJPEG =
      .ok ⟨minimalJPEG, [(228, [((none : Option Nat), [0, 6, 1, 2, 3, 4])])], 2, 10⟩ := by
    rfl
  have hw := write_multi_ok
    ⟨minimalJPEG, [(228, [((none : Option Nat), [0, 6, 1, 2, 3, 4])])], 2, 10⟩
    4 id data (by norm_num [JPEGImage.FREE_SEGMENTS]) hd1 hd2
  have hsetk : setKey [(228, [((none : Option Nat), [0, 6, 1, 2, 3, 4])])] (224 + 4)
      ((List.range (totalChunksOf id data)).map
        (fun i => ((some i : Option Nat), wFragBytes id data i))) =
      [(228, (List.range (totalChunksOf id data)).map
        (fun i => ((some i : Option Nat), wFragBytes id data i)))] := by
    norm_num [setKey]
  simp only [hsetk] at hw
  have hfr : ∀ kv ∈ [((228 : Nat), (List.range (totalChunksOf id data)).map
      (fun i => ((some i : Option Nat), wFragBytes id data i)))],
      JPEGImage.pySortFragsByIndex kv.2 = .ok kv.2 := by
    intro kv hkv
    simp only [List.mem_singleton] at hkv
    rw [hkv]
    exact pySortFragsByIndex_range_map (wFragBytes id data) (totalChunksOf id data)
  have hasm := assembleSegments_sorted_ok
    [((228 : Nat), (List.range (totalChunksOf id data)).map
      (fun i => ((some i : Option Nat), wFragBytes id data i)))]
    (by simp) hfr
  have hasm2 : JPEGImage.assembleSegments
      [((228 : Nat), (List.range (totalChunksOf id data)).map
        (fun i => ((some i : Option Nat), wFragBytes id data i)))] =
      .ok (((wBlocks 228 id data).map blockBytes).flatten) := by
    rw [hasm]
    have hpay : (List.map (fun kv => (List.map
          (fun (f : JPEGImage.Frag) => 255 :: kv.1 :: f.2) kv.2).flatten)
        [((228 : Nat), List.map (fun i => ((some i : Option Nat), wFragBytes id data i))
          (List.range (totalChunksOf id data)))]).flatten =
        (List.map blockBytes (wBlocks 228 id data)).flatten := by
      simp only [List.map_cons, List.map_nil, List.flatten_cons, List.flatten_nil,
        List.append_nil, List.map_map]
      unfold wBlocks
      rw [List.map_map]
      rfl
    rw [hpay]
  have hsave : JPEGImage.save ⟨minimalJPEG,
      [((228 : Nat), (List.range (totalChunksOf id data)).map
        (fun i => ((some i : Option Nat), wFragBytes id data i)))], 2, 10⟩ =
      .ok ([255, 216] ++
        (((wBlocks 228 id data).map blockBytes).flatten ++ [255, 217])) := by
    unfold JPEGImage.save
    simp only [hasm2]
    rfl
  have hshapes := wBlocks_shapes 228 4 id data (by norm_num) (by norm_num)
    hid hdata hcs hd1 htc254
  have hchain : BlocksAt
      ([255, 216] ++ (((wBlocks 228 id data).map blockBytes).flatten ++ [255, 217]))
      2 (wBlocks 228 id data) := by
    apply blocksAt_build _ _ _ hshapes
    rfl
  have hmk : JPEGImage.collectMarkers 0
      ([255, 216] ++ (((wBlocks 228 id data).map blockBytes).flatten ++ [255, 217])) =
      markerPositions 2 (wBlocks 228 id data) := by
    have h1 : [255, 216] ++
        (((wBlocks 228 id data).map blockBytes).flatten ++ [255, 217]) =
        255 :: 216 ::
          (((wBlocks 228 id data).map blockBytes).flatten ++ [255, 217]) := rfl
    rw [h1, cm_skip_pair 0 255 216 _ (by omega),
      cm_blocks (wBlocks 228 id data) hshapes
        (wBlocks_even 228 id data hcs hd1 m hm) (0 + 2)]
  have hwbcons := wBlocks_cons 228 id data m hm
  have hkeys : ∀ q ∈ markerPositions 2 (wBlocks 228 id data), q.1 = 228 :=
    markerPositions_keys 228 _ 2 (wBlocks_keys 228 id data)
  have hgroups : JPEGImage.groupMarkers (markerPositions 2 (wBlocks 228 id data)) =
      [(228, (markerPositions 2 (wBlocks 228 id data)).map Prod.snd)] := by
    rw [hwbcons, markerPositions_cons]
    refine groupMarkers_same_key 228 _ _ ?_
    intro q hq
    refine hkeys q ?_
    rw [hwbcons, markerPositions_cons]
    exact hq
  have hmin1 : JPEGImage.listMin
      (([((228 : Nat),
        (markerPositions 2 (wBlocks 228 id data)).map Prod.snd)]).map Prod.fst) =
      .ok 228 := by
    simp only [List.map_cons, List.map_nil]
    rfl
  have hmin2 : JPEGImage.listMin
      ((markerPositions 2 (wBlocks 228 id data)).map Prod.snd) = .ok 2 := by
    rw [hwbcons, markerPositions_cons]
    simp only [List.map_cons]
    apply listMin_of_head_le
    intro x hx
    have hge := markerPositions_ge _ _ x hx
    omega
  have hmapfrag : (wBlocks 228 id data).map
      (fun p => ((none : Option Nat), p.2)) =
      (List.range (totalChunksOf id data)).map
        (fun i => ((none : Option Nat), wFragBytes id data i)) := by
    unfold wBlocks
    rw [List.map_map]
    rfl
  have hfoldseg : (wBlocks 228 id data).foldl
      (fun sg p => JPEGImage.appendAt sg 228 ((none : Option Nat), p.2)) [] =
      [(228, (List.range (totalChunksOf id data)).map
        (fun i => ((none : Option Nat), wFragBytes id data i)))] := by
    have h := foldl_appendAt_nil 228
      (fun (p : Nat × List Nat) => ((none : Option Nat), p.2))
      (228, wFragBytes id data 0)
      ((List.range m).map (fun j => (228, wFragBytes id data (j + 1))))
    rw [hwbcons]
    simp only [h]
    rw [← hwbcons, hmapfrag]
  have hifval : (if wBlocks 228 id data = [] then 0
      else ([255, 216] ++
        (((wBlocks 228 id data).map blockBytes).flatten ++ [255, 217])).length - 2) =
      ([255, 216] ++
        (((wBlocks 228 id data).map blockBytes).flatten ++ [255, 217])).length - 2 := by
    rw [if_neg]
    rw [hwbcons]
    simp
  have hparse2 : JPEGImage.parse
      ([255, 216] ++ (((wBlocks 228 id data).map blockBytes).flatten ++ [255, 217])) =
      .ok ⟨[255, 216] ++ (((wBlocks 228 id data).map blockBytes).flatten ++ [255, 217]),
        [(228, (List.range (totalChunksOf id data)).map
          (fun i => ((none : Option Nat), wFragBytes id data i)))],
        2,
        ([255, 216] ++
          (((wBlocks 228 id data).map blockBytes).flatten ++ [255, 217])).length - 2⟩ := by
    simp only [JPEGImage.parse]
    rw [hmk, hgroups, hmin1]
    simp only [exceptBindOk]
    rw [show lookupKey
      [((228 : Nat), (markerPositions 2 (wBlocks 228 id data)).map Prod.snd)] 228 =
      some ((markerPositions 2 (wBlocks 228 id data)).map Prod.snd) from by
        simp [lookupKey]]
    simp only [Option.getD_some]
    rw [hmin2]
    simp only [exceptBindOk, List.foldlM_cons, List.foldlM_nil]
    have hIF := innerFold
      ([255, 216] ++ (((wBlocks 228 id data).map blockBytes).flatten ++ [255, 217]))
      228 (wBlocks 228 id data) 2 [] 0 hchain
    rw [hIF]
    simp only [exceptBindOk]
    rw [hfoldseg, hifval]
    rfl
  have hlk : lookupKey
      ([((228 : Nat), (List.range (totalChunksOf id data)).map
        (fun i => ((none : Option Nat), wFragBytes id data i)))] :
        List (Nat × List JPEGImage.Frag)) (224 + 4) =
      some ((List.range (totalChunksOf id data)).map
        (fun i => ((none : Option Nat), wFragBytes id data i))) := by
    norm_num [lookupKey]
  have hv : ∀ f ∈ (List.range (totalChunksOf id data)).map
      (fun i => ((none : Option Nat), wFragBytes id data i)),
      ((f : JPEGImage.Frag).2.drop 2).take (id ++ [0]).length = id ++ [0] ∧
        2 + (id ++ [0]).length + 2 ≤ f.2.length := by
    intro f hf
    simp only [List.mem_map, List.mem_range] at hf
    obtain ⟨i, _, he⟩ := hf
    rw [← he]
    exact wFrag_read_valid id data i
  have hread := read_multi_ok_table
    ⟨[255, 216] ++ (((wBlocks 228 id data).map blockBytes).flatten ++ [255, 217]),
      [(228, (List.range (totalChunksOf id data)).map
        (fun i => ((none : Option Nat), wFragBytes id data i)))],
      2,
      ([255, 216] ++
        (((wBlocks 228 id data).map blockBytes).flatten ++ [255, 217])).length - 2⟩
    4 id
    ((List.range (totalChunksOf id data)).map
      (fun i => ((none : Option Nat), wFragBytes id data i))) hlk hv
  rw [parsed_retag id data,
    pyStableSort_eq_self JPEGImage.fragIndexKey _
      (pairwise_range_map_key (wFragBytes id data) (totalChunksOf id data)),
    parsed_concat id data hd1 hd2] at hread
  refine ⟨_, _, _, _, hparse1, hw, hsave, hparse2, ?_⟩
  rw [hread]
  rfl

/-- The existing APP4 block of the minimal JPEG is well shaped. -/
theorem oldBlock_shape : FragShape (228, [0, 6, 1, 2, 3, 4]) :=
  ⟨by norm_num, by norm_num, 0, 6, [1, 2, 3, 4], rfl, by norm_num, by norm_num,
    by simp, by decide⟩

/-- The block list on disk when a fresh segment is written next to the
minimal JPEG's APP4 block. -/
def bBlocks (k : Nat) (id data : List Nat) : List (Nat × List Nat) :=
  (228, [0, 6, 1, 2, 3, 4]) :: wBlocks k id data

/-- A saved buffer: SOI, the given blocks, EOI. -/
def outBytes (blocks : List (Nat × List Nat)) : List Nat :=
  [255, 216] ++ ((blocks.map blockBytes).flatten ++ [255, 217])

set_option maxRecDepth 4000 in
/-- Round trip through the minimal JPEG on a free segment other than 4:
the existing APP4 block stays in front of the newly written blocks. -/
theorem jpeg_roundtrip_caseB (seg : Nat) (id data : List Nat)
    (hfree : seg ∈ JPEGImage.FREE_SEGMENTS) (h4 : seg ≠ 4)
    (hid : ∀ x ∈ id, x ≠ 255) (hdata : ∀ x ∈ data, x ≠ 255)
    (hd1 : 1 ≤ data.length) (hd2 : data.length ≤ 254 * chunkSizeOf id) :
    ∃ s0 s1 out s2,
      JPEGImage.parse minimalJPEG = .ok s0 ∧
      JPEGImage.write true s0 seg id data = .ok s1 ∧
      JPEGImage.save s1 = .ok out ∧
      JPEGImage.parse out = .ok s2 ∧
      (JPEGImage.read true s2 seg id).map Prod.fst = .ok (some data) := by
  have hcs : 0 < chunkSizeOf id := by
    by_contra h0
    push_neg at h0
    omega
  have htc1 := totalChunks_pos id data hcs hd1
  have htc254 := totalChunks_le id data hcs hd2
  have hfree2 : seg = 4 ∨ seg = 5 ∨ seg = 6 ∨ seg = 7 ∨ seg = 8 ∨ seg = 9 ∨
      seg = 10 ∨ seg = 11 ∨ seg = 15 := by
    simpa [JPEGImage.FREE_SEGMENTS] using hfree
  have hseg5 : 5 ≤ seg ∧ seg ≤ 15 := by
    rcases hfree2 with h | h | h | h | h | h | h | h | h <;> omega
  have hne228 : (228 : Nat) ≠ 224 + seg := by omega
  obtain ⟨m, hm⟩ : ∃ m, totalChunksOf id data = m + 1 :=
    ⟨totalChunksOf id data - 1, by omega⟩
  have hparse1 : JPEGImage.parse minimalJPEG =
      .ok ⟨minimalJPEG, [(228, [((none : Option Nat), [0, 6, 1, 2, 3, 4])])], 2, 10⟩ := by
    rfl
  have hw := write_multi_ok
    ⟨minimalJPEG, [(228, [((none : Option Nat), [0, 6, 1, 2, 3, 4])])], 2, 10⟩
    seg id data hfree hd1 hd2
  have hsetk : setKey [(228, [((none : Option Nat), [0, 6, 1, 2, 3, 4])])] (224 + seg)
      ((List.range (totalChunksOf id data)).map
        (fun i => ((some i : Option Nat), wFragBytes id data i))) =
      [(228, [((none : Option Nat), [0, 6, 1, 2, 3, 4])]),
        (224 + seg, (List.range (totalChunksOf id data)).map
          (fun i => ((some i : Option Nat), wFragBytes id data i)))] := by
    simp [setKey, hne228]
  simp only [hsetk] at hw
  have hfrB : ∀ kv ∈ [((228 : Nat), [((none : Option Nat), [0, 6, 1, 2, 3, 4])]),
      (224 + seg, (List.range (totalChunksOf id data)).map
        (fun i => ((some i : Option Nat), wFragBytes id data i)))],
      JPEGImage.pySortFragsByIndex kv.2 = .ok kv.2 := by
    intro kv hkv
    rcases List.mem_cons.mp hkv with h0 | h1
    · rw [h0]
      rfl
    · simp only [List.mem_singleton] at h1
      rw [h1]
      exact pySortFragsByIndex_range_map (wFragBytes id data) (totalChunksOf id data)
  have hasmB := assembleSegments_sorted_ok
    [((228 : Nat), [((none : Option Nat), [0, 6, 1, 2, 3, 4])]),
      (224 + seg, (List.range (totalChunksOf id data)).map
        (fun i => ((some i : Option Nat), wFragBytes id data i)))]
    (by
      refine List.pairwise_cons.mpr ⟨?_, ?_⟩
      · intro b hb
        simp only [List.mem_singleton] at hb
        rw [hb]
        show (228 : Nat) ≤ 224 + seg
        omega
      · simp) hfrB
  have hasmB2 : JPEGImage.assembleSegments
      [((228 : Nat), [((none : Option Nat), [0, 6, 1, 2, 3, 4])]),
        (224 + seg, (List.range (totalChunksOf id data)).map
          (fun i => ((some i : Option Nat), wFragBytes id data i)))] =
      .ok (((bBlocks (224 + seg) id data).map blockBytes).flatten) := by
    rw [hasmB]
    have hpayB : (List.map (fun kv => (List.map
          (fun (f : JPEGImage.Frag) => 255 :: kv.1 :: f.2) kv.2).flatten)
        [((228 : Nat), [((none : Option Nat), [0, 6, 1, 2, 3, 4])]),
          (224 + seg, List.map (fun i => ((some i : Option Nat), wFragBytes id data i))
            (List.range (totalChunksOf id data)))]).flatten =
        ((bBlocks (224 + seg) id data).map blockBytes).flatten := by
      unfold bBlocks wBlocks
      simp only [List.map_cons, List.map_nil, List.flatten_cons, List.flatten_nil,
        List.append_nil, List.map_map]
      rfl
    rw [hpayB]
  have hsaveB : JPEGImage.save ⟨minimalJPEG,
      [((228 : Nat), [((none : Option Nat), [0, 6, 1, 2, 3, 4])]),
        (224 + seg, (List.range (totalChunksOf id data)).map
          (fun i => ((some i : Option Nat), wFragBytes id data i)))], 2, 10⟩ =
      .ok (outBytes (bBlocks (224 + seg) id data)) := by
    unfold JPEGImage.save
    simp only [hasmB2]
    rfl
  have hshapesB : ∀ p ∈ bBlocks (224 + seg) id data, FragShape p := by
    intro p hp
    rcases List.mem_cons.mp hp with h0 | h1
    · rw [h0]
      exact oldBlock_shape
    · exact wBlocks_shapes (224 + seg) seg id data rfl hseg5.2 hid hdata hcs hd1
        htc254 p h1
  have hchainB : BlocksAt (outBytes (bBlocks (224 + seg) id data)) 2
      (bBlocks (224 + seg) id data) := by
    apply blocksAt_build _ _ _ hshapesB
    rfl
  have hwbcons := wBlocks_cons (224 + seg) id data m hm
  have hwbne : wBlocks (224 + seg) id data ≠ [] := by
    rw [hwbcons]
    simp
  have hevB : ∀ p ∈ (bBlocks (224 + seg) id data).dropLast, p.2.length % 2 = 0 := by
    intro p hp
    unfold bBlocks at hp
    rw [List.dropLast_cons_of_ne_nil hwbne] at hp
    rcases List.mem_cons.mp hp with h0 | h1
    · rw [h0]
      decide
    · exact wBlocks_even (224 + seg) id data hcs hd1 m hm p h1
  have hmkB : JPEGImage.collectMarkers 0 (outBytes (bBlocks (224 + seg) id data)) =
      markerPositions 2 (bBlocks (224 + seg) id data) := by
    have h1 : outBytes (bBlocks (224 + seg) id data) =
        255 :: 216 ::
          (((bBlocks (224 + seg) id data).map blockBytes).flatten ++ [255, 217]) := rfl
    rw [h1, cm_skip_pair 0 255 216 _ (by omega),
      cm_blocks _ hshapesB hevB (0 + 2)]
  have hmpcons : markerPositions 2 (bBlocks (224 + seg) id data) =
      (228, 2) :: markerPositions 10 (wBlocks (224 + seg) id data) := rfl
  have hgroupsB : JPEGImage.groupMarkers ((228, 2) ::
      markerPositions 10 (wBlocks (224 + seg) id data)) =
      [(228, [2]), (224 + seg,
        (markerPositions 10 (wBlocks (224 + seg) id data)).map Prod.snd)] := by
    rw [hwbcons, markerPositions_cons]
    refine groupMarkers_two_keys 228 (224 + seg) 2 _ _ hne228 ?_
    intro q hq
    refine markerPositions_keys (224 + seg) _ 10 (wBlocks_keys (224 + seg) id data) q ?_
    rw [hwbcons, markerPositions_cons]
    exact hq
  have hminB1 : JPEGImage.listMin [228, 224 + seg] = .ok 228 :=
    listMin_of_head_le 228 [224 + seg] (by
      intro x hx
      simp only [List.mem_singleton] at hx
      omega)
  obtain ⟨hsh0, hdrop0, hrest⟩ := hchainB
  have hext : JPEGImage.extractFrag (outBytes (bBlocks (224 + seg) id data)) 2 =
      .ok (((none : Option Nat), [0, 6, 1, 2, 3, 4]), 10) := by
    have h := extractFrag_block (outBytes (bBlocks (224 + seg) id data)) 2
      (228, [0, 6, 1, 2, 3, 4]) hsh0 hdrop0
      (BlocksAt_next_head _ _ _ hrest)
    exact h
  have hrest10 : BlocksAt (outBytes (bBlocks (224 + seg) id data)) 10
      (wBlocks (224 + seg) id data) := hrest
  have hmapfragB : (wBlocks (224 + seg) id data).map
      (fun p => ((none : Option Nat), p.2)) =
      (List.range (totalChunksOf id data)).map
        (fun i => ((none : Option Nat), wFragBytes id data i)) := by
    unfold wBlocks
    rw [List.map_map]
    rfl
  have hfoldsegB : (wBlocks (224 + seg) id data).foldl
      (fun sg p => JPEGImage.appendAt sg (224 + seg) ((none : Option Nat), p.2))
      [(228, [((none : Option Nat), [0, 6, 1, 2, 3, 4])])] =
      [(228, [((none : Option Nat), [0, 6, 1, 2, 3, 4])]),
        (224 + seg, (List.range (totalChunksOf id data)).map
          (fun i => ((none : Option Nat), wFragBytes id data i)))] := by
    have h := foldl_appendAt_two 228 (224 + seg) hne228
      [((none : Option Nat), [0, 6, 1, 2, 3, 4])]
      (fun (p : Nat × List Nat) => ((none : Option Nat), p.2))
      (224 + seg, wFragBytes id data 0)
      ((List.range m).map (fun j => (224 + seg, wFragBytes id data (j + 1))))
    rw [hwbcons]
    simp only [h]
    rw [← hwbcons, hmapfragB]
  have hifvalB : (if wBlocks (224 + seg) id data = [] then 10
      else (outBytes (bBlocks (224 + seg) id data)).length - 2) =
      (outBytes (bBlocks (224 + seg) id data)).length - 2 := by
    rw [if_neg hwbne]
  have hparseB2 : JPEGImage.parse (outBytes (bBlocks (224 + seg) id data)) =
      .ok ⟨outBytes (bBlocks (224 + seg) id data),
        [(228, [((none : Option Nat), [0, 6, 1, 2, 3, 4])]),
          (224 + seg, (List.range (totalChunksOf id data)).map
            (fun i => ((none : Option Nat), wFragBytes id data i)))],
        2,
        (outBytes (bBlocks (224 + seg) id data)).length - 2⟩ := by
    simp only [JPEGImage.parse]
    rw [hmkB, hmpcons, hgroupsB]
    simp only [List.map_cons, List.map_nil]
    rw [hminB1]
    simp only [exceptBindOk]
    rw [show lookupKey [((228 : Nat), [2]), (224 + seg,
      (markerPositions 10 (wBlocks (224 + seg) id data)).map Prod.snd)] 228 =
      some [2] from by simp [lookupKey]]
    simp only [Option.getD_some]
    rw [show JPEGImage.listMin [2] = .ok 2 from rfl]
    simp only [exceptBindOk, List.foldlM_cons, List.foldlM_nil]
    rw [hext]
    simp only [exceptBindOk]
    rw [show JPEGImage.appendAt ([] : List (Nat × List JPEGImage.Frag)) 228
      ((none : Option Nat), [0, 6, 1, 2, 3, 4]) =
      [(228, [((none : Option Nat), [0, 6, 1, 2, 3, 4])])] from rfl]
    simp only [exceptPureBind]
    have hIFB := innerFold (outBytes (bBlocks (224 + seg) id data)) (224 + seg)
      (wBlocks (224 + seg) id data) 10
      [(228, [((none : Option Nat), [0, 6, 1, 2, 3, 4])])] 10 hrest10
    rw [hIFB]
    simp only [exceptBindOk]
    rw [hfoldsegB, hifvalB]
    rfl
  have hlkB : lookupKey
      ([((228 : Nat), [((none : Option Nat), [0, 6, 1, 2, 3, 4])]),
        (224 + seg, (List.range (totalChunksOf id data)).map
          (fun i => ((none : Option Nat), wFragBytes id data i)))] :
        List (Nat × List JPEGImage.Frag)) (224 + seg) =
      some ((List.range (totalChunksOf id data)).map
        (fun i => ((none : Option Nat), wFragBytes id data i))) := by
    simp [lookupKey, hne228]
  have hvB : ∀ f ∈ (List.range (totalChunksOf id data)).map
      (fun i => ((none : Option Nat), wFragBytes id data i)),
      ((f : JPEGImage.Frag).2.drop 2).take (id ++ [0]).length = id ++ [0] ∧
        2 + (id ++ [0]).length + 2 ≤ f.2.length := by
    intro f hf
    simp only [List.mem_map, List.mem_range] at hf
    obtain ⟨i, _, he⟩ := hf
    rw [← he]
    exact wFrag_read_valid id data i
  have hread := read_multi_ok_table
    ⟨outBytes (bBlocks (224 + seg) id data),
      [(228, [((none : Option Nat), [0, 6, 1, 2, 3, 4])]),
        (224 + seg, (List.range (totalChunksOf id data)).map
          (fun i => ((none : Option Nat), wFragBytes id data i)))],
      2,
      (outBytes (bBlocks (224 + seg) id data)).length - 2⟩
    seg id
    ((List.range (totalChunksOf id data)).map
      (fun i => ((none : Option Nat), wFragBytes id data i))) hlkB hvB
  rw [parsed_retag id data,
    pyStableSort_eq_self JPEGImage.fragIndexKey _
      (pairwise_range_map_key (wFragBytes id data) (totalChunksOf id data)),
    parsed_concat id data hd1 hd2] at hread
  refine ⟨_, _, _, _, hparse1, hw, hsaveB, hparseB2, ?_⟩
  rw [hread]
  rfl

/-- Claim C1 (amended): for every free segment number, every `0xFF`-free
identifier, and every non-empty `0xFF`-free payload of at most
`254 * chunk_size` bytes, writing to the minimal well-formed JPEG, saving,
re-scanning the saved bytes, and reading with the same segment and
identifier returns the original payload unchanged.  (The claim's bound
"at most the maximum capacity" is too generous — see the counterexample
and claim C5 — and payloads or identifiers containing `0xFF`, or empty
payloads, break the rescan.) -/
theorem C1_jpeg_roundtrip (seg : Nat) (id data : List Nat)
    (hfree : seg ∈ JPEGImage.FREE_SEGMENTS)
    (hid : ∀ x ∈ id, x ≠ 255) (hdata : ∀ x ∈ data, x ≠ 255)
    (hd1 : 1 ≤ data.length) (hd2 : data.length ≤ 254 * chunkSizeOf id) :
    ∃ s0 s1 out s2,
      JPEGImage.parse minimalJPEG = .ok s0 ∧
      JPEGImage.write true s0 seg id data = .ok s1 ∧
      JPEGImage.save s1 = .ok out ∧
      JPEGImage.parse out = .ok s2 ∧
      (JPEGImage.read true s2 seg id).map Prod.fst = .ok (some data) := by
  by_cases h4 : seg = 4
  · subst h4
    exact jpeg_roundtrip_caseA id data hid hdata hd1 hd2
  · exact jpeg_roundtrip_caseB seg id data hfree h4 hid hdata hd1 hd2

set_option maxRecDepth 4000 in
/-- Claim C1 counterexample: the empty payload is within the claimed
capacity bound, yet the round trip does not return it — `write` stores
zero fragments, `save` drops the segment entirely, and re-scanning the
saved bytes raises `ValueError` (`min()` of no `app_segments`). -/
theorem C1_counterexample :
    (do
      let s0 ← JPEGImage.parse minimalJPEG
      let s1 ← (JPEGImage.write true s0 4 [116] []).mapError Prod.fst
      let out ← JPEGImage.save s1
      let s2 ← JPEGImage.parse out
      ((JPEGImage.read true s2 4 [116]).mapError Prod.fst).map Prod.fst) =
      .error .valueError := by
  rfl

set_option maxRecDepth 4000 in
theorem C1_witness :
    ∃ s0 s1 out s2,
      JPEGImage.parse minimalJPEG = .ok s0 ∧
      JPEGImage.write true s0 4 [116] [55] = .ok s1 ∧
      JPEGImage.save s1 = .ok out ∧
      JPEGImage.parse out = .ok s2 ∧
      (JPEGImage.read true s2 4 [116]).map Prod.fst = .ok (some [55]) :=
  C1_jpeg_roundtrip 4 [116] [55] (by decide) (by decide) (by decide) (by decide)
    (by norm_num [chunkSizeOf])
